import Mathlib

/-!
# Verification of the notion-to-jira transfer reconciliation core

Shallow embedding of the reconciliation routines of the repository
(`data_script.py`, `markdown_cleaner.py`, `transfer_script.py`) and proofs of
the specification claims about them.

Python strings are modelled as Lean `String`/`List Char`; Python `dict`s are
modelled as insertion-ordered association lists with Python's assignment
semantics (assigning to an existing key replaces the value in place, a new key
is appended at the end); Python object aliasing inside the two reconcilers is
modelled with an explicit heap (a store of records addressed by index or by
task id) so that in-place mutation of an already-embedded child is reflected
everywhere, exactly as in the source.
-/

namespace NotionJira

/-! ## Python string primitives -/

/-- Characters treated as whitespace by Python's `str.strip()` (ASCII range,
which is all the source data uses). -/
def pyIsSpace (c : Char) : Bool :=
  c = ' ' || c = '\t' || c = '\n' || c = '\r' || c = '\x0b' || c = '\x0c'

/-- Python `str.strip()` (no arguments): drop leading and trailing whitespace.
`List.rdropWhile` is `reverse ∘ dropWhile ∘ reverse`, i.e. dropping from the
right end. -/
def pyStrip (l : List Char) : List Char :=
  (l.dropWhile pyIsSpace).rdropWhile pyIsSpace

/-- Python `name.replace(":", "")`: removing every colon is filtering. -/
def removeColons (l : List Char) : List Char :=
  l.filter (fun c => c ≠ ':')

/-- Python `text.replace('%20', ' ')`: left-to-right, non-overlapping. -/
def replacePct20 : List Char → List Char
  | '%' :: '2' :: '0' :: rest => ' ' :: replacePct20 rest
  | c :: rest => c :: replacePct20 rest
  | [] => []

/-- Python `text.lstrip(", ")`: drop leading characters belonging to the set
`{',', ' '}`. -/
def lstripCommaSpace (l : List Char) : List Char :=
  l.dropWhile (fun c => c = ',' || c = ' ')

/-- `HierarchicalDataParser.normalize_task_name` (`data_script.py:87-89`):
`name.replace(":", "").strip()`. -/
def normalize_task_name (s : String) : String :=
  ⟨pyStrip (removeColons s.data)⟩

/-! ### Lemmas about the string primitives -/

theorem mem_of_mem_dropWhile (p : Char → Bool) (l : List Char) (c : Char)
    (h : c ∈ l.dropWhile p) : c ∈ l := by
  induction l with
  | nil => simp at h
  | cons a t ih =>
    by_cases hp : p a
    · simp only [List.dropWhile_cons, hp, if_true] at h
      exact List.mem_cons_of_mem _ (ih h)
    · simpa [List.dropWhile_cons, hp] using h

theorem mem_of_mem_rdropWhile (p : Char → Bool) (l : List Char) (c : Char)
    (h : c ∈ l.rdropWhile p) : c ∈ l := by
  obtain ⟨u, hu⟩ := List.rdropWhile_prefix p (l := l)
  exact hu ▸ List.mem_append_left u h

theorem mem_of_mem_pyStrip (l : List Char) (c : Char)
    (h : c ∈ pyStrip l) : c ∈ l :=
  mem_of_mem_dropWhile _ _ _ (mem_of_mem_rdropWhile _ _ _ h)

/-- The head of `l.dropWhile p` never satisfies `p`. -/
theorem head_dropWhile_false (p : Char → Bool) (l : List Char) :
    ∀ a t, l.dropWhile p = a :: t → p a = false := by
  induction l with
  | nil => intro a t h; simp at h
  | cons b u ih =>
    intro a t h
    by_cases hp : p b
    · rw [List.dropWhile_cons, if_pos hp] at h
      exact ih a t h
    · rw [List.dropWhile_cons, if_neg hp] at h
      cases h
      simpa using hp

/-- `pyStrip` is idempotent. -/
theorem pyStrip_pyStrip (l : List Char) : pyStrip (pyStrip l) = pyStrip l := by
  unfold pyStrip
  set p := pyIsSpace with hp
  set y := l.dropWhile p with hy
  have hz : (y.rdropWhile p).dropWhile p = y.rdropWhile p := by
    cases hzc : y.rdropWhile p with
    | nil => simp
    | cons a t =>
      obtain ⟨u, hu⟩ := List.rdropWhile_prefix p (l := y)
      rw [hzc] at hu
      have hyat : y = a :: (t ++ u) := by
        rw [← hu]; simp
      have hpa : p a = false := by
        have : l.dropWhile p = a :: (t ++ u) := by rw [← hy, hyat]
        exact head_dropWhile_false p l a (t ++ u) this
      rw [List.dropWhile_cons, hpa]
      simp
  rw [hz, List.rdropWhile_idempotent]

/-- `pyStrip` is the identity on a colon-free list. -/
theorem removeColons_of_no_colon (l : List Char) (h : ∀ c ∈ l, c ≠ ':') :
    removeColons l = l := by
  unfold removeColons
  exact List.filter_eq_self.mpr (fun c hc => by simpa using h c hc)

/-- Claim C9 — `normalize_task_name` (remove all colons, trim surrounding
whitespace) is idempotent: applying it twice gives the same string as applying
it once. -/
theorem normalize_task_name_idempotent (s : String) :
    normalize_task_name (normalize_task_name s) = normalize_task_name s := by
  unfold normalize_task_name
  have hnc : ∀ c ∈ pyStrip (removeColons s.data), c ≠ ':' := by
    intro c hc
    have hmem : c ∈ removeColons s.data := mem_of_mem_pyStrip _ _ hc
    unfold removeColons at hmem
    have := List.of_mem_filter hmem
    simpa using this
  show String.mk (pyStrip (removeColons (pyStrip (removeColons s.data)))) = _
  rw [removeColons_of_no_colon _ hnc, pyStrip_pyStrip]

/-! ## Python dictionaries as insertion-ordered association lists -/

/-- Python `d[k] = v`: replace in place if the key exists, else append. -/
def dictInsert {α : Type} (k : String) (v : α) : List (String × α) → List (String × α)
  | [] => [(k, v)]
  | (k', v') :: rest => if k' = k then (k, v) :: rest else (k', v') :: dictInsert k v rest

/-- Python `d.get(k)` / `d[k]`. -/
def dictGet {α : Type} (m : List (String × α)) (k : String) : Option α :=
  match m with
  | [] => none
  | (k', v) :: rest => if k' = k then some v else dictGet rest k

theorem dictInsert_length {α : Type} (k : String) (v : α) (m : List (String × α)) :
    (dictInsert k v m).length ≤ m.length + 1 := by
  induction m with
  | nil => simp [dictInsert]
  | cons kv rest ih =>
    obtain ⟨k', v'⟩ := kv
    by_cases h : k' = k
    · simp [dictInsert, h]
    · simp only [dictInsert, if_neg h, List.length_cons]
      omega

theorem mem_dictInsert {α : Type} (k : String) (v : α) (m : List (String × α))
    (kv : String × α) (h : kv ∈ dictInsert k v m) : kv = (k, v) ∨ kv ∈ m := by
  induction m with
  | nil => simpa [dictInsert] using h
  | cons kv' rest ih =>
    by_cases hk : kv'.1 = k
    · obtain ⟨k', v'⟩ := kv'
      simp only [dictInsert, if_pos hk, List.mem_cons] at h
      rcases h with h | h
      · exact Or.inl h
      · exact Or.inr (List.mem_cons_of_mem _ h)
    · obtain ⟨k', v'⟩ := kv'
      simp only [dictInsert, if_neg hk, List.mem_cons] at h
      rcases h with h | h
      · exact Or.inr (by simp [h])
      · rcases ih h with h' | h'
        · exact Or.inl h'
        · exact Or.inr (List.mem_cons_of_mem _ h')

/-! ## The child-reference extractor

`HierarchicalDataParser.process_child_tasks` (`data_script.py:66-76`) runs
`re.findall(r'([^(]+)\s?\(([^)]+)\.md\)', text)` and builds a dict keyed by the
last 32 characters of the second group.

The regex is embedded as an explicit scanner.  At a given start position the
pattern can only match one way: `[^(]+` greedily takes the maximal run of
non-`(` characters (the optional `\s?` necessarily matches the empty string,
since the next character is `(`), then `([^)]+)\.md\)` forces the maximal run
`s` of non-`)` characters after the `(` to end in `.md` with a nonempty group
before it, followed by `)`.  `re.findall` scans left to right, retrying at the
next position after a failed match and resuming after the end of a successful
one. -/

/-- One anchored attempt of the pattern `([^(]+)\s?\(([^)]+)\.md\)` at the head
of `cs`: returns the two captured groups and the remaining input. -/
def matchAt (cs : List Char) : Option ((List Char × List Char) × List Char) :=
  let g1 := cs.takeWhile (fun c => c ≠ '(')
  let r1 := cs.dropWhile (fun c => c ≠ '(')
  if g1.isEmpty then none
  else
    match r1 with
    | '(' :: r2 =>
      let s := r2.takeWhile (fun c => c ≠ ')')
      let r3 := r2.dropWhile (fun c => c ≠ ')')
      match r3 with
      | ')' :: r4 =>
        if 4 ≤ s.length ∧ s.drop (s.length - 3) = ['.', 'm', 'd'] then
          some ((g1, s.take (s.length - 3)), r4)
        else none
      | _ => none
    | _ => none

/-- `re.findall` scanning loop, with fuel for structural termination; the
initial fuel `length + 1` always suffices because every step strictly consumes
input. -/
def pyFindallAux : Nat → List Char → List (List Char × List Char)
  | 0, _ => []
  | _ + 1, [] => []
  | fuel + 1, c :: cs =>
    match matchAt (c :: cs) with
    | some (g, rest) => g :: pyFindallAux fuel rest
    | none => pyFindallAux fuel cs

/-- All matches of `([^(]+)\s?\(([^)]+)\.md\)` in the text, as (group1, group2)
pairs, in order. -/
def pyFindall (l : List Char) : List (List Char × List Char) :=
  pyFindallAux l.length l

/-- The label cleaning applied per match in `process_child_tasks`
(`data_script.py:71`): `match[0].strip().replace('%20', ' ').lstrip(", ")`,
then `normalize_task_name`. -/
def cleanChildName (g1 : List Char) : String :=
  normalize_task_name ⟨lstripCommaSpace (replacePct20 (pyStrip g1))⟩

/-- `match[1][-32:]` (`data_script.py:73`): the trailing 32 characters of the
token, or the whole token when shorter. -/
def last32 (token : List Char) : String :=
  ⟨token.drop (token.length - 32)⟩

/-- `HierarchicalDataParser.process_child_tasks` (`data_script.py:66-76`). -/
def process_child_tasks (text : String) : List (String × String) :=
  (pyFindall text.data).foldl
    (fun res g => dictInsert (last32 g.2) (cleanChildName g.1) res) []

/-! ### Claims C4 and C5 -/

theorem foldl_dictInsert_length {β : Type} (key : β → String) (val : β → String)
    (ms : List β) :
    ∀ init : List (String × String),
      (ms.foldl (fun res g => dictInsert (key g) (val g) res) init).length ≤
        init.length + ms.length := by
  induction ms with
  | nil => intro init; simp
  | cons g rest ih =>
    intro init
    calc (List.foldl _ (dictInsert (key g) (val g) init) rest).length
        ≤ (dictInsert (key g) (val g) init).length + rest.length := ih _
      _ ≤ init.length + 1 + rest.length :=
          Nat.add_le_add_right (dictInsert_length _ _ _) _
      _ = init.length + (rest.length + 1) := by omega
      _ = init.length + (g :: rest).length := by simp

theorem foldl_dictInsert_mem {β : Type} (key : β → String) (val : β → String)
    (ms : List β) :
    ∀ (init : List (String × String)) (kv : String × String),
      kv ∈ ms.foldl (fun res g => dictInsert (key g) (val g) res) init →
      kv ∈ init ∨ ∃ g ∈ ms, kv = (key g, val g) := by
  induction ms with
  | nil => intro init kv h; exact Or.inl (by simpa using h)
  | cons g rest ih =>
    intro init kv h
    rcases ih _ kv h with h' | ⟨g', hg', hkv⟩
    · rcases mem_dictInsert _ _ _ _ h' with h'' | h''
      · exact Or.inr ⟨g, List.mem_cons_self _ _, h''⟩
      · exact Or.inl h''
    · exact Or.inr ⟨g', List.mem_cons_of_mem _ hg', hkv⟩

/-- Claim C4 (amended) — `process_child_tasks` returns a mapping with at most
as many entries as there are pattern matches in the text (fewer exactly when
two matches share the same derived key, since the dict collapses them), and
every entry's key is the trailing 32 characters of the token of some match
(the whole token when shorter than 32), with the cleaned label as value. -/
theorem process_child_tasks_keys_bound (text : String) :
    (process_child_tasks text).length ≤ (pyFindall text.data).length ∧
    ∀ kv ∈ process_child_tasks text,
      ∃ g ∈ pyFindall text.data, kv = (last32 g.2, cleanChildName g.1) := by
  unfold process_child_tasks
  constructor
  · have h1 : (List.foldl (fun res g => dictInsert (last32 g.2) (cleanChildName g.1) res)
        [] (pyFindall text.data)).length ≤
        ([] : List (String × String)).length + (pyFindall text.data).length :=
      foldl_dictInsert_length _ _ _ _
    simpa using h1
  · intro kv h
    rcases foldl_dictInsert_mem _ _ _ _ kv h with h' | h'
    · simp at h'
    · exact h'

set_option maxHeartbeats 1000000 in
theorem process_child_tasks_keys_bound_witness :
    (process_child_tasks "A (x.md)").length ≤ (pyFindall "A (x.md)".data).length ∧
    ∃ g ∈ pyFindall "A (x.md)".data, (("x", "A") : String × String) =
      (last32 g.2, cleanChildName g.1) :=
  ⟨(process_child_tasks_keys_bound "A (x.md)").1,
   (process_child_tasks_keys_bound "A (x.md)").2 ("x", "A") (by decide)⟩

set_option maxHeartbeats 1000000 in
/-- Claim C4 (counterexample) — on `"A (x.md), B (x.md)"` the pattern matches
twice but both tokens share the same trailing-32 key `"x"`, so the mapping has
a single entry: the entry count does **not** equal the occurrence count. -/
theorem process_child_tasks_count_cex :
    (process_child_tasks "A (x.md), B (x.md)").length ≠
      (pyFindall "A (x.md), B (x.md)".data).length := by
  decide

set_option maxHeartbeats 1000000 in
/-- Claim C5 (counterexample) — on the spec's example input the extractor does
**not** return the mapping `{"a1b2…d4": "Design Doc"}`: the value of an entry
is the cleaned label captured *before* the parenthesis (`"Design"`), not the
decoded filename inside it. -/
theorem process_child_tasks_design_cex :
    process_child_tasks "Design (Design%20Doc a1b2c3d4e5f6a1b2c3d4e5f6a1b2c3d4.md)" ≠
      [("a1b2c3d4e5f6a1b2c3d4e5f6a1b2c3d4", "Design Doc")] := by
  decide

set_option maxHeartbeats 1000000 in
/-- Claim C5 (amended) — on the raw reference text
`"Design (Design%20Doc a1b2c3d4e5f6a1b2c3d4e5f6a1b2c3d4.md)"` the extractor
returns exactly `{"a1b2c3d4e5f6a1b2c3d4e5f6a1b2c3d4": "Design"}`: the key is
the trailing 32 characters of the token, and the value is the label before the
parenthesis. -/
theorem process_child_tasks_design_example :
    process_child_tasks "Design (Design%20Doc a1b2c3d4e5f6a1b2c3d4e5f6a1b2c3d4.md)" =
      [("a1b2c3d4e5f6a1b2c3d4e5f6a1b2c3d4", "Design")] := by
  decide

/-! ## Status and priority projection (claim C8)

`HierarchicalDataParser.process_task_status` (`data_script.py:59-64`) and the
inline priority projection of `read_csv` (`data_script.py:120-128`).  The
content of the external `status.json` resource is a parameter. -/

/-- `process_task_status`: an empty status is first replaced by `"backlog"`,
then the (possibly replaced) status is looked up in the loaded mapping with
`dict.get`, which yields `None` for an absent key. -/
def process_task_status (status_mapping : List (String × String))
    (status : String) : Option String :=
  dictGet status_mapping (if status = "" then "backlog" else status)

/-- The literal priority table of `read_csv` (`data_script.py:121-127`). -/
def priority_mapping : List (String × String) :=
  [("P0-Blocker", "Highest"), ("P1-Critical", "High"), ("P2-High", "Medium"),
   ("P3-Normal", "Low"), ("P4-Minor", "Lowest")]

/-- The priority projection of `read_csv` (`data_script.py:128`):
`priority_mapping.get(priority, "Medium") if priority else "Medium"`. -/
def csvPriority (priority : String) : String :=
  if priority = "" then "Medium"
  else (dictGet priority_mapping priority).getD "Medium"

/-- Claim C8 (counterexample) — for the unknown status tier `"triaging"` (not a
key of the loaded mapping), `process_task_status` returns `None`, **not** the
default bucket `"backlog"`: the `"backlog"` substitution only applies to an
empty status, and an unmatched lookup falls through `dict.get` with no
default. -/
theorem process_task_status_unknown_cex :
    process_task_status [("todo", "To Do")] "triaging" ≠ some "backlog" := by
  decide

/-- Claim C8 (amended) — for every non-empty status string absent from the
loaded status mapping, `process_task_status` returns `None` (no `"backlog"`
defaulting); the `"backlog"` key is only used when the status is empty.  The
priority half of the claim holds as stated: every priority tier that is empty
or absent from the priority table projects to the default `"Medium"`. -/
theorem status_priority_defaults :
    (∀ (m : List (String × String)) (s : String), s ≠ "" → dictGet m s = none →
      process_task_status m s = none) ∧
    (∀ p : String, p = "" ∨ dictGet priority_mapping p = none →
      csvPriority p = "Medium") := by
  constructor
  · intro m s hs habs
    simpa [process_task_status, if_neg hs] using habs
  · intro p hp
    rcases hp with hp | hp
    · simp [csvPriority, hp]
    · by_cases hp' : p = ""
      · simp [csvPriority, hp']
      · simp [csvPriority, hp', hp]

theorem status_priority_defaults_witness :
    process_task_status [("todo", "To Do")] "triaging" = none ∧
    csvPriority "P9-Trivial" = "Medium" :=
  ⟨status_priority_defaults.1 [("todo", "To Do")] "triaging" (by decide) (by decide),
   status_priority_defaults.2 "P9-Trivial" (Or.inr (by decide))⟩

/-! ## The graph flattener `resolve_nested_tasks` (`transfer_script.py:272-334`)

The Python function receives the structured data fetched from the remote API:
a dict whose `'tasks'` key maps to a dict of task-id → task record, each record
carrying a `sub_tasks` list of plain id strings.  The records are mutable and
shared: embedding stores a *reference* to the child object, and a child's own
`sub_tasks` list may be rewritten after the child has already been embedded
into a parent, with the parent seeing the update.  The model therefore keeps
one heap of records addressed by task id; an embedded child is the heap entry
named by its id.

The first pass of the source (`resolved_data['tasks'][task_id] =
resolve_nested_tasks(task_info)`) replaces every record by a shallow copy of
itself: a task record has no `'tasks'` key, so the recursive call returns the
copy unchanged.  It is a functional no-op and is not represented.  The second
pass walks the snapshot of the tasks dict in insertion order; for each record
with a non-empty `sub_tasks` list it replaces every listed id that is a key of
the tasks dict by the (current) record stored there, dropping ids that are not
keys, and marks each found id as processed; finally all processed ids are
removed from the top level. -/

/-- An element of a record's `sub_tasks` list: either a plain child id string
(the input state) or an embedded reference to the task object stored in the
heap under `id` (the resolved state). -/
inductive SubEntry where
  | ref (id : String)
  | emb (id : String)
deriving DecidableEq

/-- A task record: its `sub_tasks` value (`none` when the key is absent) and
the remaining fields, which the flattener never touches, kept opaque. -/
structure TaskRec where
  fields : List (String × String)
  sub_tasks : Option (List SubEntry)
deriving DecidableEq

/-- The value of the `'tasks'` key: the heap of all task records addressed by
id, plus the list of ids present at the top level of the dict (in insertion
order).  A plain input dict has every heap key at the top level
(`mkTasksVal`); after flattening, embedded ids are no longer at the top level
but their records remain in the heap, referenced by `SubEntry.emb`. -/
structure TasksVal where
  heap : List (String × TaskRec)
  top : List String
deriving DecidableEq

/-- A value of the outer data dict: the structured `'tasks'` value, or any
other value, opaque. -/
inductive TopVal where
  | atom (s : String)
  | tasks (tv : TasksVal)
deriving DecidableEq

/-- The argument of `resolve_nested_tasks`: any non-dict value (returned
as-is), or a dict. -/
inductive NInput where
  | nonDict (v : String)
  | dict (entries : List (String × TopVal))
deriving DecidableEq

/-- A plain tasks dict, as produced by `fetch_detailed_data`: every key is at
the top level. -/
def mkTasksVal (ts : List (String × TaskRec)) : TasksVal :=
  ⟨ts, ts.map Prod.fst⟩

/-- The inner loop over one record's `sub_tasks`
(`transfer_script.py:309-319`): a listed id that is a key of the tasks dict is
replaced by an embedded reference and recorded as processed; an id that is not
a key is silently dropped.  (In every reachable state the entries are all
`ref`s — the input data lists plain id strings and each record is processed
once — so the `emb` case is just kept in place.) -/
def embedSubs (heap : List (String × TaskRec)) : List SubEntry → List SubEntry × List String
  | [] => ([], [])
  | SubEntry.ref sid :: rest =>
    let r := embedSubs heap rest
    if (dictGet heap sid).isSome then (SubEntry.emb sid :: r.1, sid :: r.2) else r
  | SubEntry.emb sid :: rest =>
    let r := embedSubs heap rest
    (SubEntry.emb sid :: r.1, r.2)

/-- Case split of `stepTask` on the record's `sub_tasks` value: the record is
only touched when the key is present and the list non-empty (Python's
`if 'sub_tasks' in task_info and task_info['sub_tasks']`). -/
def stepTaskSub (st : List (String × TaskRec) × List String) (tid : String)
    (info : TaskRec) : Option (List SubEntry) → List (String × TaskRec) × List String
  | none => st
  | some [] => st
  | some l =>
    let r := embedSubs st.1 l
    (dictInsert tid { info with sub_tasks := some r.1 } st.1, st.2 ++ r.2)

/-- Case split of `stepTask` on the heap lookup of `tid`. -/
def stepTaskGet (st : List (String × TaskRec) × List String) (tid : String) :
    Option TaskRec → List (String × TaskRec) × List String
  | none => st
  | some info => stepTaskSub st tid info info.sub_tasks

/-- One iteration of the second pass (`transfer_script.py:302-325`) on the
state (heap, processed ids): the record named `tid`, when it has a non-empty
`sub_tasks` list, gets that list resolved against the current heap and is
updated in place. -/
def stepTask (st : List (String × TaskRec) × List String) (tid : String) :
    List (String × TaskRec) × List String :=
  stepTaskGet st tid (dictGet st.1 tid)

/-- The whole `'tasks'` transformation of `resolve_nested_tasks`
(`transfer_script.py:290-332`): run the second pass over the snapshot of keys
in insertion order, then remove every processed id from the top level. -/
def resolveTasks (ts : List (String × TaskRec)) : TasksVal :=
  let st := (ts.map Prod.fst).foldl stepTask (ts, [])
  ⟨st.1, (ts.map Prod.fst).filter (fun k => decide (k ∉ st.2))⟩

/-- Processing of a single entry of the outer dict: only the `'tasks'` key is
rewritten; a `'tasks'` key holding a non-dict value would make the source
raise (`.items()` on a non-dict), modelled as `none`. -/
def resolveEntry : String × TopVal → Option (String × TopVal)
  | (k, v) =>
    if k = "tasks" then
      match v with
      | TopVal.tasks tv => some (k, TopVal.tasks (resolveTasks tv.heap))
      | TopVal.atom _ => none
    else some (k, v)

/-- Entry-by-entry processing of the outer dict. -/
def resolveEntries : List (String × TopVal) → Option (List (String × TopVal))
  | [] => some []
  | e :: rest =>
    match resolveEntry e, resolveEntries rest with
    | some e', some rest' => some (e' :: rest')
    | _, _ => none

/-- `resolve_nested_tasks` (`transfer_script.py:272-334`): a non-dict argument
is returned as-is; for a dict, only the value of the `'tasks'` key is
transformed. -/
def resolve_nested_tasks : NInput → Option NInput
  | NInput.nonDict v => some (NInput.nonDict v)
  | NInput.dict entries => (resolveEntries entries).map NInput.dict

/-! ### Dictionary lemmas for the flattener -/

theorem dictGet_dictInsert_self {α : Type} (k : String) (v : α) (m : List (String × α)) :
    dictGet (dictInsert k v m) k = some v := by
  induction m with
  | nil => simp [dictInsert, dictGet]
  | cons kv rest ih =>
    obtain ⟨k', v'⟩ := kv
    by_cases h : k' = k
    · simp [dictInsert, dictGet, h]
    · simp [dictInsert, dictGet, h, ih]

theorem dictGet_dictInsert_ne {α : Type} (k k' : String) (v : α) (m : List (String × α))
    (h : k ≠ k') : dictGet (dictInsert k v m) k' = dictGet m k' := by
  induction m with
  | nil => simp [dictInsert, dictGet, h]
  | cons kv rest ih =>
    obtain ⟨k₁, v₁⟩ := kv
    by_cases h1 : k₁ = k
    · subst h1
      simp [dictInsert, dictGet, h]
    · simp only [dictInsert, if_neg h1, dictGet]
      by_cases h2 : k₁ = k'
      · simp [h2]
      · simp [h2, ih]

theorem dictInsert_keys_of_mem {α : Type} (k : String) (v : α) (m : List (String × α))
    (h : (dictGet m k).isSome) :
    (dictInsert k v m).map Prod.fst = m.map Prod.fst := by
  induction m with
  | nil => simp [dictGet] at h
  | cons kv rest ih =>
    obtain ⟨k', v'⟩ := kv
    by_cases hk : k' = k
    · simp [dictInsert, hk]
    · simp only [dictGet, if_neg hk] at h
      simp [dictInsert, hk, ih h]

theorem dictGet_of_mem_nodup {α : Type} (m : List (String × α)) (k : String) (v : α)
    (hnd : (m.map Prod.fst).Nodup) (h : (k, v) ∈ m) : dictGet m k = some v := by
  induction m with
  | nil => simp at h
  | cons kv rest ih =>
    obtain ⟨k', v'⟩ := kv
    simp only [List.map_cons, List.nodup_cons] at hnd
    rcases List.mem_cons.mp h with h1 | h1
    · cases h1
      simp [dictGet]
    · have hk : k' ≠ k := by
        intro hkk
        subst hkk
        exact hnd.1 (List.mem_map_of_mem Prod.fst h1)
      simp [dictGet, hk, ih hnd.2 h1]

/-! ### State lemmas for the second pass -/

theorem stepTask_keys (st : List (String × TaskRec) × List String) (tid : String) :
    (stepTask st tid).1.map Prod.fst = st.1.map Prod.fst := by
  unfold stepTask
  cases hg : dictGet st.1 tid with
  | none => rfl
  | some info =>
    simp only [stepTaskGet]
    cases info.sub_tasks with
    | none => rfl
    | some l =>
      cases l with
      | nil => rfl
      | cons e es =>
        simp only [stepTaskSub]
        exact dictInsert_keys_of_mem _ _ _ (by simp [hg])

theorem stepTask_get_ne (st : List (String × TaskRec) × List String) (tid k : String)
    (h : tid ≠ k) : dictGet (stepTask st tid).1 k = dictGet st.1 k := by
  unfold stepTask
  cases hg : dictGet st.1 tid with
  | none => rfl
  | some info =>
    simp only [stepTaskGet]
    cases info.sub_tasks with
    | none => rfl
    | some l =>
      cases l with
      | nil => rfl
      | cons e es =>
        simp only [stepTaskSub]
        exact dictGet_dictInsert_ne _ _ _ _ h

theorem stepTask_processed_mono (st : List (String × TaskRec) × List String)
    (tid x : String) (h : x ∈ st.2) : x ∈ (stepTask st tid).2 := by
  unfold stepTask
  cases hg : dictGet st.1 tid with
  | none => exact h
  | some info =>
    simp only [stepTaskGet]
    cases info.sub_tasks with
    | none => exact h
    | some l =>
      cases l with
      | nil => exact h
      | cons e es =>
        simp only [stepTaskSub]
        exact List.mem_append_left _ h

theorem foldl_stepTask_get_ne (l : List String) :
    ∀ (st : List (String × TaskRec) × List String) (k : String), k ∉ l →
      dictGet (l.foldl stepTask st).1 k = dictGet st.1 k := by
  induction l with
  | nil => intro st k _; rfl
  | cons t rest ih =>
    intro st k hk
    have h1 : t ≠ k := fun h => hk (h ▸ List.mem_cons_self t rest)
    have h2 : k ∉ rest := fun h => hk (List.mem_cons_of_mem _ h)
    rw [List.foldl_cons, ih _ k h2, stepTask_get_ne _ _ _ h1]

theorem foldl_stepTask_processed_mono (l : List String) :
    ∀ (st : List (String × TaskRec) × List String) (x : String), x ∈ st.2 →
      x ∈ (l.foldl stepTask st).2 := by
  induction l with
  | nil => intro st x h; exact h
  | cons t rest ih =>
    intro st x h
    exact ih _ x (stepTask_processed_mono _ _ _ h)

theorem embedSubs_self (heap : List (String × TaskRec)) (l : List SubEntry)
    (sid : String) (hmem : SubEntry.ref sid ∈ l) (hsome : (dictGet heap sid).isSome) :
    SubEntry.emb sid ∈ (embedSubs heap l).1 ∧ sid ∈ (embedSubs heap l).2 := by
  induction l with
  | nil => simp at hmem
  | cons e rest ih =>
    rcases List.mem_cons.mp hmem with he | he
    · subst he
      simp only [embedSubs, hsome, if_pos]
      exact ⟨List.mem_cons_self _ _, List.mem_cons_self _ _⟩
    · cases e with
      | ref sid' =>
        by_cases hs : (dictGet heap sid').isSome
        · simp only [embedSubs, hs, if_pos]
          exact ⟨List.mem_cons_of_mem _ (ih he).1, List.mem_cons_of_mem _ (ih he).2⟩
        · simp only [embedSubs, hs, Bool.false_eq_true, if_false]
          exact ih he
      | emb sid' =>
        simp only [embedSubs]
        exact ⟨List.mem_cons_of_mem _ (ih he).1, (ih he).2⟩

/-! ### Claim C3 — self-referencing records -/

/-- Claim C3 (counterexample) — `resolve_nested_tasks` does **not** reject a
self-reference: on a tasks dict whose single record `"A"` lists its own id,
the record does *not* remain at the top level of the resulting tasks mapping
(it is embedded into itself and then removed as a "processed" id). -/
theorem resolve_nested_tasks_self_cex :
    ¬ ∀ tv, resolve_nested_tasks (NInput.dict [("tasks", TopVal.tasks (mkTasksVal
          [("A", TaskRec.mk [] (some [SubEntry.ref "A"]))]))]) =
        some (NInput.dict [("tasks", TopVal.tasks tv)]) →
      "A" ∈ tv.top := by
  intro h
  have h1 := h ⟨[("A", TaskRec.mk [] (some [SubEntry.emb "A"]))], []⟩ (by decide)
  simp at h1

/-- Claim C3 (amended) — a record that lists its own id in `sub_tasks` is
embedded *into itself* (its resolved `sub_tasks` contains a reference to
itself) and is **removed** from the top level of the resulting tasks mapping;
no cycle detection exists.  The computation does terminate (the flattening is
a single bounded pass; the recursion of the source is a no-op on task
records). -/
theorem resolveTasks_heap (ts : List (String × TaskRec)) :
    (resolveTasks ts).heap = ((ts.map Prod.fst).foldl stepTask (ts, [])).1 := rfl

theorem resolveTasks_top (ts : List (String × TaskRec)) :
    (resolveTasks ts).top = (ts.map Prod.fst).filter
      (fun k => decide (k ∉ ((ts.map Prod.fst).foldl stepTask (ts, [])).2)) := rfl

theorem resolve_self_embedding (ts : List (String × TaskRec)) (a : String)
    (A : TaskRec) (l : List SubEntry) (hnd : (ts.map Prod.fst).Nodup)
    (hmem : (a, A) ∈ ts) (hsub : A.sub_tasks = some l)
    (hself : SubEntry.ref a ∈ l) :
    a ∉ (resolveTasks ts).top ∧
    (∃ A', dictGet (resolveTasks ts).heap a = some A' ∧
      SubEntry.emb a ∈ A'.sub_tasks.getD []) ∧
    resolve_nested_tasks (NInput.dict [("tasks", TopVal.tasks (mkTasksVal ts))]) =
      some (NInput.dict [("tasks", TopVal.tasks (resolveTasks ts))]) := by
  have ha : a ∈ ts.map Prod.fst := List.mem_map_of_mem Prod.fst hmem
  obtain ⟨pre, post, hsplit⟩ := List.append_of_mem ha
  have hnd' := hnd
  rw [hsplit] at hnd'
  rw [List.nodup_append] at hnd'
  have hpost : a ∉ post := by
    have := hnd'.2.1
    rw [List.nodup_cons] at this
    exact this.1
  have hpre : a ∉ pre := fun hm => hnd'.2.2 hm (List.mem_cons_self _ _)
  have hts : dictGet ts a = some A := dictGet_of_mem_nodup ts a A hnd hmem
  set st1 := pre.foldl stepTask (ts, []) with hst1
  have hget1 : dictGet st1.1 a = some A := by
    rw [hst1, foldl_stepTask_get_ne pre (ts, []) a hpre]
    exact hts
  cases l with
  | nil => simp at hself
  | cons e es =>
    have hsome : (dictGet st1.1 a).isSome = true := by rw [hget1]; rfl
    have hembed := embedSubs_self st1.1 (e :: es) a hself hsome
    have hstep : stepTask st1 a =
        (dictInsert a { A with sub_tasks := some (embedSubs st1.1 (e :: es)).1 } st1.1,
          st1.2 ++ (embedSubs st1.1 (e :: es)).2) := by
      unfold stepTask
      rw [hget1]
      simp only [stepTaskGet]
      rw [hsub]
      rfl
    have hstEq : (ts.map Prod.fst).foldl stepTask (ts, []) =
        post.foldl stepTask (stepTask st1 a) := by
      rw [hsplit, List.foldl_append, List.foldl_cons, hst1]
    have hgetF : dictGet ((ts.map Prod.fst).foldl stepTask (ts, [])).1 a =
        some { A with sub_tasks := some (embedSubs st1.1 (e :: es)).1 } := by
      rw [hstEq, foldl_stepTask_get_ne post _ a hpost, hstep]
      exact dictGet_dictInsert_self _ _ _
    have hproc : a ∈ ((ts.map Prod.fst).foldl stepTask (ts, [])).2 := by
      rw [hstEq]
      apply foldl_stepTask_processed_mono
      rw [hstep]
      exact List.mem_append_right _ hembed.2
    refine ⟨?_, ⟨_, by rw [resolveTasks_heap]; exact hgetF, by simpa using hembed.1⟩, rfl⟩
    intro htop
    rw [resolveTasks_top] at htop
    have := List.of_mem_filter htop
    rw [decide_eq_true_iff] at this
    exact this hproc

theorem resolve_self_embedding_witness :
    "A" ∉ (resolveTasks [("A", TaskRec.mk [] (some [SubEntry.ref "A"]))]).top ∧
    (∃ A', dictGet (resolveTasks [("A", TaskRec.mk [] (some [SubEntry.ref "A"]))]).heap
        "A" = some A' ∧ SubEntry.emb "A" ∈ A'.sub_tasks.getD []) ∧
    resolve_nested_tasks (NInput.dict [("tasks", TopVal.tasks (mkTasksVal
        [("A", TaskRec.mk [] (some [SubEntry.ref "A"]))]))]) =
      some (NInput.dict [("tasks", TopVal.tasks (resolveTasks
        [("A", TaskRec.mk [] (some [SubEntry.ref "A"]))]))]) :=
  resolve_self_embedding [("A", TaskRec.mk [] (some [SubEntry.ref "A"]))] "A"
    (TaskRec.mk [] (some [SubEntry.ref "A"])) [SubEntry.ref "A"]
    (by decide) (by decide) rfl (by decide)

/-! ### Claim C10 — frame condition of `resolve_nested_tasks` -/

theorem resolveEntry_shape (e e' : String × TopVal) (h : resolveEntry e = some e') :
    e'.1 = e.1 ∧ (e.1 ≠ "tasks" → e' = e) := by
  obtain ⟨k, v⟩ := e
  by_cases hk : k = "tasks"
  · subst hk
    cases v with
    | atom s => simp [resolveEntry] at h
    | tasks tv =>
      simp only [resolveEntry, if_pos rfl] at h
      cases h
      exact ⟨rfl, fun hc => absurd rfl hc⟩
  · simp only [resolveEntry, if_neg hk] at h
    cases h
    exact ⟨rfl, fun _ => rfl⟩

theorem resolveEntries_get (entries : List (String × TopVal)) :
    ∀ es', resolveEntries entries = some es' →
      ∀ k, k ≠ "tasks" → dictGet es' k = dictGet entries k := by
  induction entries with
  | nil =>
    intro es' h k _
    simp only [resolveEntries] at h
    cases h
    rfl
  | cons e rest ih =>
    intro es' h k hk
    simp only [resolveEntries] at h
    cases h1 : resolveEntry e with
    | none => rw [h1] at h; simp at h
    | some e' =>
      rw [h1] at h
      cases h2 : resolveEntries rest with
      | none => rw [h2] at h; simp at h
      | some rest' =>
        rw [h2] at h
        simp only at h
        cases h
        obtain ⟨hfst, hid⟩ := resolveEntry_shape e e' h1
        obtain ⟨k₁, v₁⟩ := e
        by_cases hek : k₁ = k
        · subst hek
          have he' : e' = (k₁, v₁) := hid (by simpa using hk)
          subst he'
          simp [dictGet]
        · obtain ⟨k₂, v₂⟩ := e'
          have hk₂ : k₂ = k₁ := hfst
          subst hk₂
          simp only [dictGet, if_neg hek]
          exact ih rest' h2 k hk

/-- Claim C10 — frame condition: a non-dict argument is returned unchanged,
and for a dict argument every key other than `'tasks'` is bound in the result
to exactly its input value (`resolve_nested_tasks` starts from `data.copy()`
and only reassigns `resolved_data['tasks']`). -/
theorem resolve_nested_tasks_frame :
    (∀ v, resolve_nested_tasks (NInput.nonDict v) = some (NInput.nonDict v)) ∧
    (∀ entries r, resolve_nested_tasks (NInput.dict entries) = some r →
      ∃ es', r = NInput.dict es' ∧
        ∀ k, k ≠ "tasks" → dictGet es' k = dictGet entries k) := by
  constructor
  · intro v; rfl
  · intro entries r h
    simp only [resolve_nested_tasks] at h
    cases hres : resolveEntries entries with
    | none => rw [hres] at h; simp at h
    | some es' =>
      rw [hres] at h
      simp only [Option.map_some'] at h
      cases h
      exact ⟨es', rfl, resolveEntries_get entries es' hres⟩

theorem resolve_nested_tasks_frame_witness :
    ∃ es', NInput.dict [("k", TopVal.atom "v")] = NInput.dict es' ∧
      ∀ k, k ≠ "tasks" → dictGet es' k = dictGet [("k", TopVal.atom "v")] k :=
  resolve_nested_tasks_frame.2 [("k", TopVal.atom "v")]
    (NInput.dict [("k", TopVal.atom "v")]) (by rfl)

/-! ### Claim C2 — flattening a three-level chain -/

/-- Claim C2 — for every 3-level chain A→B→C (record `a` lists `b` as its only
sub-task, `b` lists `c`, `c` lists nothing, and the tasks dict holds exactly
these three records, in any insertion order), `resolve_nested_tasks` leaves
only `a` at the top level, embeds `b`'s record under `a` and `c`'s record
under `b`, and duplicates nothing: each record occurs exactly once in the
result (the heap binds each id once and the top level is exactly `[a]`). -/
theorem resolve_three_chain (a b c : String) (fA fB fC : List (String × String))
    (cs : Option (List SubEntry)) (ts : List (String × TaskRec))
    (hab : a ≠ b) (hac : a ≠ c) (hbc : b ≠ c)
    (hcs : cs = none ∨ cs = some [])
    (horder :
      ts = [(a, TaskRec.mk fA (some [SubEntry.ref b])),
            (b, TaskRec.mk fB (some [SubEntry.ref c])), (c, TaskRec.mk fC cs)] ∨
      ts = [(a, TaskRec.mk fA (some [SubEntry.ref b])), (c, TaskRec.mk fC cs),
            (b, TaskRec.mk fB (some [SubEntry.ref c]))] ∨
      ts = [(b, TaskRec.mk fB (some [SubEntry.ref c])),
            (a, TaskRec.mk fA (some [SubEntry.ref b])), (c, TaskRec.mk fC cs)] ∨
      ts = [(b, TaskRec.mk fB (some [SubEntry.ref c])), (c, TaskRec.mk fC cs),
            (a, TaskRec.mk fA (some [SubEntry.ref b]))] ∨
      ts = [(c, TaskRec.mk fC cs), (a, TaskRec.mk fA (some [SubEntry.ref b])),
            (b, TaskRec.mk fB (some [SubEntry.ref c]))] ∨
      ts = [(c, TaskRec.mk fC cs), (b, TaskRec.mk fB (some [SubEntry.ref c])),
            (a, TaskRec.mk fA (some [SubEntry.ref b]))]) :
    resolve_nested_tasks (NInput.dict [("tasks", TopVal.tasks (mkTasksVal ts))]) =
      some (NInput.dict [("tasks", TopVal.tasks (resolveTasks ts))]) ∧
    (resolveTasks ts).top = [a] ∧
    dictGet (resolveTasks ts).heap a = some (TaskRec.mk fA (some [SubEntry.emb b])) ∧
    dictGet (resolveTasks ts).heap b = some (TaskRec.mk fB (some [SubEntry.emb c])) ∧
    dictGet (resolveTasks ts).heap c = some (TaskRec.mk fC cs) := by
  have hba := Ne.symm hab
  have hca := Ne.symm hac
  have hcb := Ne.symm hbc
  rcases hcs with hcs | hcs <;> subst hcs <;>
    rcases horder with h | h | h | h | h | h <;> subst h <;>
    refine ⟨rfl, ?_, ?_, ?_, ?_⟩ <;>
    simp [resolveTasks, stepTask, stepTaskGet, stepTaskSub, embedSubs, dictGet,
      dictInsert, mkTasksVal, hab, hac, hbc, hba, hca, hcb]

theorem resolve_three_chain_witness :
    resolve_nested_tasks (NInput.dict [("tasks", TopVal.tasks (mkTasksVal
        [("A", TaskRec.mk [] (some [SubEntry.ref "B"])),
         ("B", TaskRec.mk [] (some [SubEntry.ref "C"])),
         ("C", TaskRec.mk [] none)]))]) =
      some (NInput.dict [("tasks", TopVal.tasks (resolveTasks
        [("A", TaskRec.mk [] (some [SubEntry.ref "B"])),
         ("B", TaskRec.mk [] (some [SubEntry.ref "C"])),
         ("C", TaskRec.mk [] none)]))]) ∧
    (resolveTasks
        [("A", TaskRec.mk [] (some [SubEntry.ref "B"])),
         ("B", TaskRec.mk [] (some [SubEntry.ref "C"])),
         ("C", TaskRec.mk [] none)]).top = ["A"] ∧
    dictGet (resolveTasks
        [("A", TaskRec.mk [] (some [SubEntry.ref "B"])),
         ("B", TaskRec.mk [] (some [SubEntry.ref "C"])),
         ("C", TaskRec.mk [] none)]).heap "A" =
      some (TaskRec.mk [] (some [SubEntry.emb "B"])) ∧
    dictGet (resolveTasks
        [("A", TaskRec.mk [] (some [SubEntry.ref "B"])),
         ("B", TaskRec.mk [] (some [SubEntry.ref "C"])),
         ("C", TaskRec.mk [] none)]).heap "B" =
      some (TaskRec.mk [] (some [SubEntry.emb "C"])) ∧
    dictGet (resolveTasks
        [("A", TaskRec.mk [] (some [SubEntry.ref "B"])),
         ("B", TaskRec.mk [] (some [SubEntry.ref "C"])),
         ("C", TaskRec.mk [] none)]).heap "C" = some (TaskRec.mk [] none) :=
  resolve_three_chain "A" "B" "C" [] [] [] none
    [("A", TaskRec.mk [] (some [SubEntry.ref "B"])),
     ("B", TaskRec.mk [] (some [SubEntry.ref "C"])),
     ("C", TaskRec.mk [] none)]
    (by decide) (by decide) (by decide) (Or.inl rfl) (Or.inl rfl)

/-! ## The tree reconciler `reorganize_epic_tasks` (`data_script.py:209-260`)

One epic's catalogue is a list of items (id, summary, type, and the
`child_items` mapping of reference-key → referenced name).  The Python code
mutates shared item dicts: a popped child stored into a parent's
`child_items` is the same object that the loop may later mutate again (its own
children get resolved at its own iteration).  The model therefore keeps a heap
of processed items addressed by their *position* in the catalogue; an embedded
child is a pointer (`CEntry.ptr j`) to heap slot `j`.

Passes, as in the source: `stories`/`tasks` are the items of type `'Story'` /
`'Task'` (any other type belongs to neither list), `task_map` maps the
normalized task summary to the task (later duplicate silently overwrites),
pass 1 walks all tasks, pass 2 all stories, each reference either pops its
normalized match out of `task_map` (embedding it under the item, keyed by the
child's id) or is retained as an unresolved (key, name) pair; finally
`epic['items']` becomes the stories followed by the never-popped tasks. -/

/-- A catalogue item as built by `read_csv`/`process_notion_data`. -/
structure EItem where
  id : String
  summary : String
  type : String
  child_items : List (String × String)
deriving DecidableEq

/-- A value of a reconciled `child_items` mapping: an unresolved name label,
or an embedded child (a pointer to catalogue position `j`). -/
inductive CEntry where
  | lbl (s : String)
  | ptr (j : Nat)
deriving DecidableEq

/-- An item during/after reconciliation. -/
structure PItem where
  id : String
  summary : String
  type : String
  child_items : List (String × CEntry)
deriving DecidableEq

/-- The heap at the start of reconciliation: every item with its references
as unresolved labels. -/
def initHeap (items : List EItem) : List PItem :=
  items.map fun it => ⟨it.id, it.summary, it.type, it.child_items.map fun kv => (kv.1, CEntry.lbl kv.2)⟩

/-- The type tag of the item at position `i`. -/
def typeAt (items : List EItem) (i : Nat) : String :=
  ((items[i]?).map EItem.type).getD ""

/-- The summary of the item at position `i`. -/
def summaryAt (items : List EItem) (i : Nat) : String :=
  ((items[i]?).map EItem.summary).getD ""

/-- The id of the catalogue item at position `i`. -/
def idOf (items : List EItem) (i : Nat) : String :=
  ((items[i]?).map EItem.id).getD ""

/-- The references of the catalogue item at position `i`. -/
def childAt (items : List EItem) (i : Nat) : List (String × String) :=
  ((items[i]?).map EItem.child_items).getD []

/-- `tasks = [item for item in items if item['type'] == 'Task']`, as
positions. -/
def taskIdxs (items : List EItem) : List Nat :=
  (List.range items.length).filter fun i => decide (typeAt items i = "Task")

/-- `stories = [item for item in items if item['type'] == 'Story']`, as
positions. -/
def storyIdxs (items : List EItem) : List Nat :=
  (List.range items.length).filter fun i => decide (typeAt items i = "Story")

/-- `task_map = {normalize_task_name(task['summary']): task for task in
tasks}` (`data_script.py:218`): an insertion-ordered dict from normalized
summary to item position; a later task with the same normalized summary
silently overwrites the earlier one. -/
def initMap (items : List EItem) : List (String × Nat) :=
  (taskIdxs items).foldl
    (fun m i => dictInsert (normalize_task_name (summaryAt items i)) i m) []

/-- Python `task_map.pop(k)` (together with the preceding membership test):
remove the binding of `k` and return its value, or `none` leaving the map
unchanged. -/
def dictPop (k : String) : List (String × Nat) → Option Nat × List (String × Nat)
  | [] => (none, [])
  | (k', v) :: rest =>
    if k' = k then (some v, rest)
    else
      let r := dictPop k rest
      (r.1, (k', v) :: r.2)

/-- `child_task['id']` of the heap item at position `j`. -/
def idAt (heap : List PItem) (j : Nat) : String :=
  ((heap[j]?).map PItem.id).getD ""

/-- Case split of `procEntry` on the result of the pop. -/
def procEntryPop (heap : List PItem) (st : List (String × CEntry) × List (String × Nat))
    (k : String) (name : String) :
    Option Nat × List (String × Nat) → List (String × CEntry) × List (String × Nat)
  | (some j, m') => (dictInsert (idAt heap j) (CEntry.ptr j) st.1, m')
  | (none, _) => (dictInsert k (CEntry.lbl name) st.1, st.2)

/-- One reference of one item (`data_script.py:226-232` and `243-249`): a
label whose normalization is in `task_map` is popped and embedded (keyed by
the child's id); otherwise the (key, label) pair is retained.  (An already
embedded entry can never be encountered: every item is processed exactly
once.) -/
def procEntry (heap : List PItem) (st : List (String × CEntry) × List (String × Nat))
    (e : String × CEntry) : List (String × CEntry) × List (String × Nat) :=
  match e with
  | (k, CEntry.lbl name) =>
    procEntryPop heap st k name (dictPop (normalize_task_name name) st.2)
  | (k, CEntry.ptr j) => (dictInsert k (CEntry.ptr j) st.1, st.2)

/-- Case split of `stepItem` on the heap lookup. -/
def stepItemGet (st : List PItem × List (String × Nat)) (i : Nat) :
    Option PItem → List PItem × List (String × Nat)
  | none => st
  | some it =>
    let r := it.child_items.foldl (procEntry st.1) ([], st.2)
    (st.1.set i { it with child_items := r.1 }, r.2)

/-- Processing of one item of a pass: fold `procEntry` over its current
references starting from an empty `new_child_items`, then store the rebuilt
mapping back into the item. -/
def stepItem (st : List PItem × List (String × Nat)) (i : Nat) :
    List PItem × List (String × Nat) :=
  stepItemGet st i (st.1[i]?)

/-- The state after both passes of `reorganize_epic_tasks` for one epic:
pass 1 over the tasks, then pass 2 over the stories, starting from the fresh
heap and `task_map`. -/
def reorganizeState (items : List EItem) : List PItem × List (String × Nat) :=
  (taskIdxs items ++ storyIdxs items).foldl stepItem (initHeap items, initMap items)

/-- `epic['items'] = stories + standalone_tasks` (`data_script.py:253-257`):
the stories in order, then the tasks remaining in `task_map` in insertion
order. -/
def topIdxs (items : List EItem) : List Nat :=
  storyIdxs items ++ (reorganizeState items).2.map Prod.snd

/-- `reorganize_epic_tasks` for one epic of the list: the reconciled heap and
the positions of the top-level output items. -/
def reorganize_epic_tasks (items : List EItem) : List PItem × List Nat :=
  ((reorganizeState items).1, topIdxs items)

/-- The identifiers occurring in the output tree below heap position `i`:
the item's own id followed by the identifiers below each embedded child.
Fuel-bounded unfolding; `heap.length` fuel suffices for every acyclic
forest. -/
def idsFrom (heap : List PItem) : Nat → Nat → List String
  | 0, _ => []
  | fuel + 1, i =>
    match heap[i]? with
    | none => []
    | some it =>
      it.id :: it.child_items.flatMap fun e =>
        match e.2 with
        | CEntry.ptr j => idsFrom heap fuel j
        | CEntry.lbl _ => []

/-- The multiset of identifiers appearing in the reconciled output: the
top-level items together with all transitively embedded children. -/
def outputIds (items : List EItem) : List String :=
  (topIdxs items).flatMap
    (idsFrom (reorganizeState items).1 (reorganizeState items).1.length)

/-- Claim C1 (counterexample) — reconciliation does **not** preserve the
multiset of item identifiers: an item whose type is neither `'Story'` nor
`'Task'` (here a `'Bug'`) belongs to neither pass list and is silently dropped
from the output, so the output of the one-item catalogue is empty. -/
theorem reorganize_ids_cex :
    ¬ Multiset.ofList (outputIds [⟨"1", "Fix login", "Bug", []⟩]) =
      Multiset.ofList (([⟨"1", "Fix login", "Bug", []⟩] : List EItem).map EItem.id) := by
  decide

/-! ### Embedded-occurrence bookkeeping

`heapTargets` lists every embedded-child occurrence (by target position)
anywhere in the heap; together with the top-level list it describes where each
catalogue item occurs in the reconciled output. -/

/-- The pointer targets among a `child_items` mapping. -/
def entriesPtrs (l : List (String × CEntry)) : List Nat :=
  l.filterMap fun e =>
    match e.2 with
    | CEntry.ptr j => some j
    | CEntry.lbl _ => none

/-- The pointer targets of one item. -/
def itemPtrs (it : PItem) : List Nat :=
  entriesPtrs it.child_items

/-- Every embedded-child occurrence in the heap, in heap order. -/
def heapTargets (heap : List PItem) : List Nat :=
  heap.flatMap itemPtrs

theorem entriesPtrs_nil : entriesPtrs [] = [] := rfl

theorem entriesPtrs_cons_ptr (k : String) (j : Nat) (l : List (String × CEntry)) :
    entriesPtrs ((k, CEntry.ptr j) :: l) = j :: entriesPtrs l := rfl

theorem entriesPtrs_cons_lbl (k s : String) (l : List (String × CEntry)) :
    entriesPtrs ((k, CEntry.lbl s) :: l) = entriesPtrs l := rfl

theorem heapTargets_cons (it : PItem) (heap : List PItem) :
    heapTargets (it :: heap) = itemPtrs it ++ heapTargets heap := rfl

theorem entriesPtrs_map_lbl (l : List (String × String)) :
    entriesPtrs (l.map fun kv => (kv.1, CEntry.lbl kv.2)) = [] := by
  induction l with
  | nil => rfl
  | cons kv rest ih => simpa [entriesPtrs_cons_lbl] using ih

theorem heapTargets_initHeap (items : List EItem) :
    heapTargets (initHeap items) = [] := by
  induction items with
  | nil => rfl
  | cons it rest ih =>
    show itemPtrs _ ++ heapTargets (initHeap rest) = []
    rw [ih]
    simpa [itemPtrs] using entriesPtrs_map_lbl it.child_items

theorem mem_entriesPtrs_dictInsert (k : String) (e : CEntry)
    (acc : List (String × CEntry)) (x : Nat)
    (h : x ∈ entriesPtrs (dictInsert k e acc)) :
    e = CEntry.ptr x ∨ x ∈ entriesPtrs acc := by
  induction acc with
  | nil =>
    cases e with
    | lbl s => simp [dictInsert, entriesPtrs] at h
    | ptr j =>
      simp [dictInsert, entriesPtrs] at h
      exact Or.inl (by rw [h])
  | cons kv rest ih =>
    obtain ⟨k', e'⟩ := kv
    by_cases hk : k' = k
    · simp only [dictInsert, if_pos hk] at h
      cases e with
      | lbl s =>
        rw [entriesPtrs_cons_lbl] at h
        cases e' with
        | lbl s' => exact Or.inr (by rwa [entriesPtrs_cons_lbl])
        | ptr j' =>
          rw [entriesPtrs_cons_ptr]
          exact Or.inr (List.mem_cons_of_mem _ h)
      | ptr j =>
        rw [entriesPtrs_cons_ptr] at h
        rcases List.mem_cons.mp h with h1 | h1
        · exact Or.inl (by rw [h1])
        · cases e' with
          | lbl s' => exact Or.inr (by rwa [entriesPtrs_cons_lbl])
          | ptr j' =>
            rw [entriesPtrs_cons_ptr]
            exact Or.inr (List.mem_cons_of_mem _ h1)
    · simp only [dictInsert, if_neg hk] at h
      cases e' with
      | lbl s' =>
        rw [entriesPtrs_cons_lbl] at h
        rcases ih h with h1 | h1
        · exact Or.inl h1
        · exact Or.inr (by rwa [entriesPtrs_cons_lbl])
      | ptr j' =>
        rw [entriesPtrs_cons_ptr] at h
        rcases List.mem_cons.mp h with h1 | h1
        · subst h1
          exact Or.inr (by rw [entriesPtrs_cons_ptr]; exact List.mem_cons_self _ _)
        · rcases ih h1 with h2 | h2
          · exact Or.inl h2
          · rw [entriesPtrs_cons_ptr]
            exact Or.inr (List.mem_cons_of_mem _ h2)

theorem nodup_entriesPtrs_dictInsert_lbl (k s : String) (acc : List (String × CEntry))
    (h : (entriesPtrs acc).Nodup) :
    (entriesPtrs (dictInsert k (CEntry.lbl s) acc)).Nodup := by
  induction acc with
  | nil => simp [dictInsert, entriesPtrs]
  | cons kv rest ih =>
    obtain ⟨k', e'⟩ := kv
    by_cases hk : k' = k
    · simp only [dictInsert, if_pos hk, entriesPtrs_cons_lbl]
      cases e' with
      | lbl s' => rwa [entriesPtrs_cons_lbl] at h
      | ptr j' =>
        rw [entriesPtrs_cons_ptr] at h
        exact h.of_cons
    · simp only [dictInsert, if_neg hk]
      cases e' with
      | lbl s' =>
        rw [entriesPtrs_cons_lbl] at h ⊢
        exact ih h
      | ptr j' =>
        rw [entriesPtrs_cons_ptr] at h ⊢
        rw [List.nodup_cons] at h ⊢
        refine ⟨fun hm => ?_, ih h.2⟩
        rcases mem_entriesPtrs_dictInsert _ _ _ _ hm with h1 | h1
        · exact absurd h1 (by simp)
        · exact h.1 h1

theorem nodup_entriesPtrs_dictInsert_ptr (k : String) (j : Nat)
    (acc : List (String × CEntry)) (h : (entriesPtrs acc).Nodup)
    (hj : j ∉ entriesPtrs acc) :
    (entriesPtrs (dictInsert k (CEntry.ptr j) acc)).Nodup := by
  induction acc with
  | nil => simp [dictInsert, entriesPtrs]
  | cons kv rest ih =>
    obtain ⟨k', e'⟩ := kv
    by_cases hk : k' = k
    · simp only [dictInsert, if_pos hk, entriesPtrs_cons_ptr]
      cases e' with
      | lbl s' =>
        rw [entriesPtrs_cons_lbl] at h hj
        exact List.nodup_cons.mpr ⟨hj, h⟩
      | ptr j' =>
        rw [entriesPtrs_cons_ptr] at h hj
        rw [List.nodup_cons] at h
        exact List.nodup_cons.mpr ⟨fun hm => hj (List.mem_cons_of_mem _ hm), h.2⟩
    · simp only [dictInsert, if_neg hk]
      cases e' with
      | lbl s' =>
        rw [entriesPtrs_cons_lbl] at h hj ⊢
        exact ih h hj
      | ptr j' =>
        rw [entriesPtrs_cons_ptr] at h hj ⊢
        rw [List.nodup_cons] at h ⊢
        refine ⟨fun hm => ?_, ih h.2 (fun hm => hj (List.mem_cons_of_mem _ hm))⟩
        rcases mem_entriesPtrs_dictInsert _ _ _ _ hm with h1 | h1
        · cases h1
          exact hj (List.mem_cons_self _ _)
        · exact h.1 h1

/-! ### `dictPop` and `dictInsert` bookkeeping on values and keys -/

theorem mem_values_dictInsert {α : Type} (k : String) (v : α) (m : List (String × α))
    (x : α) (h : x ∈ (dictInsert k v m).map Prod.snd) :
    x = v ∨ x ∈ m.map Prod.snd := by
  rcases List.mem_map.mp h with ⟨kv, hkv, hx⟩
  rcases mem_dictInsert _ _ _ _ hkv with h1 | h1
  · subst h1; exact Or.inl hx.symm
  · exact Or.inr (hx ▸ List.mem_map_of_mem Prod.snd h1)

theorem nodup_values_dictInsert {α : Type} (k : String) (v : α) (m : List (String × α))
    (h : (m.map Prod.snd).Nodup) (hv : v ∉ m.map Prod.snd) :
    ((dictInsert k v m).map Prod.snd).Nodup := by
  induction m with
  | nil => simp [dictInsert]
  | cons kv rest ih =>
    obtain ⟨k', v'⟩ := kv
    rw [List.map_cons, List.nodup_cons] at h
    rw [List.map_cons, List.mem_cons, not_or] at hv
    by_cases hk : k' = k
    · simp only [dictInsert, if_pos hk, List.map_cons, List.nodup_cons]
      exact ⟨hv.2, h.2⟩
    · simp only [dictInsert, if_neg hk, List.map_cons, List.nodup_cons]
      constructor
      · intro hm
        rcases mem_values_dictInsert _ _ _ _ hm with h1 | h1
        · exact hv.1 h1.symm
        · exact h.1 h1
      · exact ih h.2 hv.2

theorem nodup_keys_dictInsert {α : Type} (k : String) (v : α) (m : List (String × α))
    (h : (m.map Prod.fst).Nodup) :
    ((dictInsert k v m).map Prod.fst).Nodup := by
  induction m with
  | nil => simp [dictInsert]
  | cons kv rest ih =>
    obtain ⟨k', v'⟩ := kv
    simp only [List.map_cons, List.nodup_cons] at h
    by_cases hk : k' = k
    · subst hk
      have hins : dictInsert k' v ((k', v') :: rest) = (k', v) :: rest := by
        simp [dictInsert]
      rw [hins, List.map_cons, List.nodup_cons]
      exact ⟨h.1, h.2⟩
    · simp only [dictInsert, if_neg hk, List.map_cons, List.nodup_cons]
      refine ⟨fun hm => ?_, ih h.2⟩
      rcases List.mem_map.mp hm with ⟨kv', hkv', hx⟩
      rcases mem_dictInsert _ _ _ _ hkv' with h1 | h1
      · cases h1; exact hk hx.symm
      · exact h.1 (hx ▸ List.mem_map_of_mem Prod.fst h1)

theorem dictPop_some_spec (k : String) (m : List (String × Nat)) (j : Nat)
    (m' : List (String × Nat)) (h : dictPop k m = (some j, m')) :
    j ∈ m.map Prod.snd ∧
    (∀ x ∈ m'.map Prod.snd, x ∈ m.map Prod.snd) ∧
    (∀ s ∈ m'.map Prod.fst, s ∈ m.map Prod.fst) ∧
    ((m.map Prod.snd).Nodup → (m'.map Prod.snd).Nodup ∧ j ∉ m'.map Prod.snd) ∧
    ((m.map Prod.fst).Nodup → (m'.map Prod.fst).Nodup) := by
  induction m generalizing m' with
  | nil => simp [dictPop] at h
  | cons kv rest ih =>
    obtain ⟨k', v'⟩ := kv
    by_cases hk : k' = k
    · simp only [dictPop, if_pos hk] at h
      obtain ⟨h1, h2⟩ := Prod.mk.injEq .. ▸ h
      cases h1
      cases h2
      refine ⟨by simp, fun x hx => by simp [hx], fun s hs => by simp [hs], ?_, ?_⟩
      · intro hnd
        simp only [List.map_cons, List.nodup_cons] at hnd
        injection h with hj hm'
        exact ⟨hnd.2, hnd.1⟩
      · intro hnd
        simp only [List.map_cons, List.nodup_cons] at hnd
        exact hnd.2
    · simp only [dictPop, if_neg hk] at h
      obtain ⟨h1, h2⟩ := Prod.mk.injEq .. ▸ h
      cases hrec : dictPop k rest with
      | mk r₁ r₂ =>
        rw [hrec] at h1 h2
        simp only at h1 h2
        subst h2
        have hr := ih r₂ (by rw [hrec, h1])
        refine ⟨List.mem_cons_of_mem _ hr.1, ?_, ?_, ?_, ?_⟩
        · intro x hx
          simp only [List.map_cons, List.mem_cons] at hx ⊢
          rcases hx with hx | hx
          · exact Or.inl hx
          · exact Or.inr (hr.2.1 x hx)
        · intro s hs
          simp only [List.map_cons, List.mem_cons] at hs ⊢
          rcases hs with hs | hs
          · exact Or.inl hs
          · exact Or.inr (hr.2.2.1 s hs)
        · intro hnd
          simp only [List.map_cons, List.nodup_cons] at hnd ⊢
          refine ⟨⟨fun hm => hnd.1 (hr.2.1 _ hm), (hr.2.2.2.1 hnd.2).1⟩, ?_⟩
          simp only [List.mem_cons, not_or]
          refine ⟨fun hv => hnd.1 (hv ▸ hr.1), (hr.2.2.2.1 hnd.2).2⟩
        · intro hnd
          simp only [List.map_cons, List.nodup_cons] at hnd ⊢
          exact ⟨fun hm => hnd.1 (hr.2.2.1 _ hm), hr.2.2.2.2 hnd.2⟩

/-- Updating one heap slot splits `heapTargets` into the unchanged
surroundings and the slot's own pointer list. -/
theorem heapTargets_set (heap : List PItem) :
    ∀ (i : Nat) (it it' : PItem), heap[i]? = some it →
      ∃ T₁ T₂, heapTargets heap = T₁ ++ (itemPtrs it ++ T₂) ∧
        heapTargets (heap.set i it') = T₁ ++ (itemPtrs it' ++ T₂) := by
  induction heap with
  | nil => intro i it it' h; simp at h
  | cons x rest ih =>
    intro i it it' h
    cases i with
    | zero =>
      rw [List.getElem?_cons_zero] at h
      cases h
      refine ⟨[], heapTargets rest, by simp [heapTargets_cons], ?_⟩
      rw [List.set_cons_zero]
      simp [heapTargets_cons]
    | succ i' =>
      rw [List.getElem?_cons_succ] at h
      obtain ⟨T₁, T₂, hold, hnew⟩ := ih i' it it' h
      refine ⟨itemPtrs x ++ T₁, T₂, ?_, ?_⟩
      · rw [heapTargets_cons, hold, List.append_assoc]
      · rw [List.set_cons_succ, heapTargets_cons, hnew, List.append_assoc]

/-- Behaviour of the `new_child_items`/`task_map` fold over one item's
references, starting from entries that are all labels (the state of any item
when its pass reaches it): the map only shrinks (values, keys), value and key
duplicate-freeness are preserved, the produced pointer list is duplicate-free,
disjoint from the remaining map, and every produced pointer was popped from
the map. -/
theorem procEntry_fold_spec (heap : List PItem) :
    ∀ (entries acc : List (String × CEntry)) (m : List (String × Nat)),
      (∀ e ∈ entries, ∀ j : Nat, e.2 ≠ CEntry.ptr j) →
      (m.map Prod.snd).Nodup →
      (entriesPtrs acc).Nodup →
      (∀ j ∈ entriesPtrs acc, j ∉ m.map Prod.snd) →
      ((entries.foldl (procEntry heap) (acc, m)).2.map Prod.snd).Nodup ∧
      (∀ x ∈ (entries.foldl (procEntry heap) (acc, m)).2.map Prod.snd,
        x ∈ m.map Prod.snd) ∧
      (∀ s ∈ (entries.foldl (procEntry heap) (acc, m)).2.map Prod.fst,
        s ∈ m.map Prod.fst) ∧
      ((m.map Prod.fst).Nodup →
        ((entries.foldl (procEntry heap) (acc, m)).2.map Prod.fst).Nodup) ∧
      (entriesPtrs (entries.foldl (procEntry heap) (acc, m)).1).Nodup ∧
      (∀ j ∈ entriesPtrs (entries.foldl (procEntry heap) (acc, m)).1,
        j ∉ (entries.foldl (procEntry heap) (acc, m)).2.map Prod.snd) ∧
      (∀ j ∈ entriesPtrs (entries.foldl (procEntry heap) (acc, m)).1,
        j ∈ entriesPtrs acc ∨ j ∈ m.map Prod.snd) := by
  intro entries
  induction entries with
  | nil =>
    intro acc m _ hvnd hand hdisj
    exact ⟨hvnd, fun x hx => hx, fun s hs => hs, fun hk => hk, hand,
      fun j hj => hdisj j hj, fun j hj => Or.inl hj⟩
  | cons e rest ih =>
    intro acc m hlbl hvnd hand hdisj
    obtain ⟨k, ce⟩ := e
    cases ce with
    | ptr j => exact absurd rfl (hlbl (k, CEntry.ptr j) (List.mem_cons_self _ _) j)
    | lbl name =>
      rw [List.foldl_cons]
      cases hpop : dictPop (normalize_task_name name) m with
      | mk o m₂ =>
        cases o with
        | none =>
          have hstep : procEntry heap (acc, m) (k, CEntry.lbl name) =
              (dictInsert k (CEntry.lbl name) acc, m) := by
            show procEntryPop heap (acc, m) k name
              (dictPop (normalize_task_name name) m) = _
            rw [hpop]
            rfl
          rw [hstep]
          have hand2 := nodup_entriesPtrs_dictInsert_lbl k name acc hand
          have hdisj2 : ∀ j ∈ entriesPtrs (dictInsert k (CEntry.lbl name) acc),
              j ∉ m.map Prod.snd := by
            intro j hj
            rcases mem_entriesPtrs_dictInsert _ _ _ _ hj with h1 | h1
            · exact absurd h1 (by simp)
            · exact hdisj j h1
          obtain ⟨c1, c2, c3, c4, c5, c6, c7⟩ :=
            ih (dictInsert k (CEntry.lbl name) acc) m
              (fun e he j => hlbl e (List.mem_cons_of_mem _ he) j) hvnd hand2 hdisj2
          refine ⟨c1, c2, c3, c4, c5, c6, fun j hj => ?_⟩
          rcases c7 j hj with h1 | h1
          · rcases mem_entriesPtrs_dictInsert _ _ _ _ h1 with h2 | h2
            · exact absurd h2 (by simp)
            · exact Or.inl h2
          · exact Or.inr h1
        | some jj =>
          have hstep : procEntry heap (acc, m) (k, CEntry.lbl name) =
              (dictInsert (idAt heap jj) (CEntry.ptr jj) acc, m₂) := by
            show procEntryPop heap (acc, m) k name
              (dictPop (normalize_task_name name) m) = _
            rw [hpop]
            rfl
          rw [hstep]
          have hps := dictPop_some_spec _ _ _ _ hpop
          have hjv : jj ∈ m.map Prod.snd := hps.1
          have hjnacc : jj ∉ entriesPtrs acc := fun hm => hdisj jj hm hjv
          have hvnd2 := (hps.2.2.2.1 hvnd).1
          have hjnm2 := (hps.2.2.2.1 hvnd).2
          have hand2 := nodup_entriesPtrs_dictInsert_ptr (idAt heap jj) jj acc hand hjnacc
          have hdisj2 : ∀ x ∈ entriesPtrs (dictInsert (idAt heap jj) (CEntry.ptr jj) acc),
              x ∉ m₂.map Prod.snd := by
            intro x hm hx
            rcases mem_entriesPtrs_dictInsert _ _ _ _ hm with h1 | h1
            · cases h1
              exact hjnm2 hx
            · exact hdisj x h1 (hps.2.1 x hx)
          obtain ⟨c1, c2, c3, c4, c5, c6, c7⟩ :=
            ih (dictInsert (idAt heap jj) (CEntry.ptr jj) acc) m₂
              (fun e he j => hlbl e (List.mem_cons_of_mem _ he) j) hvnd2 hand2 hdisj2
          refine ⟨c1, fun x hx => hps.2.1 x (c2 x hx), fun s hs => hps.2.2.1 s (c3 s hs),
            fun hknd => c4 (hps.2.2.2.2 hknd), c5, c6, fun j hj => ?_⟩
          rcases c7 j hj with h1 | h1
          · rcases mem_entriesPtrs_dictInsert _ _ _ _ h1 with h2 | h2
            · cases h2
              exact Or.inr hjv
            · exact Or.inl h2
          · exact Or.inr (hps.2.1 j h1)

/-- The reconciliation invariant: heap ids and length are those of the
catalogue; the `task_map` values are duplicate-free task positions whose keys
are duplicate-free normalized task summaries; the embedded-child occurrences
are duplicate-free task positions; and no position is both still in the map
and already embedded. -/
structure StateInv (items : List EItem) (st : List PItem × List (String × Nat)) : Prop where
  hlen : st.1.length = items.length
  hid : ∀ i : Nat, (st.1[i]?).map PItem.id = (items[i]?).map EItem.id
  hvnd : (st.2.map Prod.snd).Nodup
  hvtask : ∀ j ∈ st.2.map Prod.snd, j ∈ taskIdxs items
  htnd : (heapTargets st.1).Nodup
  httask : ∀ j ∈ heapTargets st.1, j ∈ taskIdxs items
  hdisj : ∀ j ∈ st.2.map Prod.snd, j ∉ heapTargets st.1
  hknd : (st.2.map Prod.fst).Nodup
  hkeys : ∀ s ∈ st.2.map Prod.fst, ∃ jj ∈ taskIdxs items,
    s = normalize_task_name (summaryAt items jj)

theorem stepItem_heap_get_ne (st : List PItem × List (String × Nat)) (i j : Nat)
    (h : i ≠ j) : (stepItem st i).1[j]? = st.1[j]? := by
  unfold stepItem
  cases hg : st.1[i]? with
  | none => rfl
  | some it =>
    simp only [stepItemGet]
    exact List.getElem?_set_ne h

/-- An item of `initHeap` and its label-only references, recovered from a
successful lookup. -/
theorem initHeap_get (items : List EItem) (i : Nat) (it : PItem)
    (h : (initHeap items)[i]? = some it) :
    ∃ base, items[i]? = some base ∧
      it = ⟨base.id, base.summary, base.type,
        base.child_items.map fun kv => (kv.1, CEntry.lbl kv.2)⟩ := by
  unfold initHeap at h
  rw [List.getElem?_map] at h
  cases hb : items[i]? with
  | none => rw [hb] at h; simp at h
  | some base =>
    rw [hb] at h
    simp only [Option.map_some'] at h
    exact ⟨base, rfl, (Option.some.injEq .. ▸ h).symm⟩

/-- `stepItem` preserves the invariant, provided the processed item is still
in its initial (label-only) state — which is always the case since every
item is processed at most once. -/
theorem stepItem_inv (items : List EItem) (st : List PItem × List (String × Nat))
    (i : Nat) (inv : StateInv items st)
    (hinit : st.1[i]? = (initHeap items)[i]?) :
    StateInv items (stepItem st i) := by
  unfold stepItem
  cases hg : st.1[i]? with
  | none => exact inv
  | some it =>
    simp only [stepItemGet]
    obtain ⟨base, hbase, hform⟩ := initHeap_get items i it (hinit ▸ hg)
    have hlblit : ∀ e ∈ it.child_items, ∀ j : Nat, e.2 ≠ CEntry.ptr j := by
      intro e he j
      rw [hform] at he
      simp only at he
      rcases List.mem_map.mp he with ⟨kv, _, hkv⟩
      rw [← hkv]
      simp
    have hptrsit : itemPtrs it = [] := by
      rw [hform]
      simpa [itemPtrs] using entriesPtrs_map_lbl base.child_items
    obtain ⟨c1, c2, c3, c4, c5, c6, c7⟩ :=
      procEntry_fold_spec st.1 it.child_items [] st.2 hlblit inv.hvnd
        (by rw [entriesPtrs_nil]; exact List.nodup_nil) (by simp [entriesPtrs_nil])
    have c7' : ∀ j ∈ entriesPtrs (it.child_items.foldl (procEntry st.1) ([], st.2)).1,
        j ∈ st.2.map Prod.snd := by
      intro j hj
      rcases c7 j hj with h1 | h1
      · simp [entriesPtrs_nil] at h1
      · exact h1
    obtain ⟨T₁, T₂, hold, hnew⟩ :=
      heapTargets_set st.1 i it { it with child_items :=
        (it.child_items.foldl (procEntry st.1) ([], st.2)).1 } hg
    rw [hptrsit, List.nil_append] at hold
    have hnew' : heapTargets (st.1.set i { it with child_items :=
        (it.child_items.foldl (procEntry st.1) ([], st.2)).1 }) =
        T₁ ++ (entriesPtrs (it.child_items.foldl (procEntry st.1) ([], st.2)).1 ++ T₂) := by
      rw [hnew]; rfl
    have hT : ∀ x, x ∈ T₁ ∨ x ∈ T₂ → x ∈ heapTargets st.1 := by
      intro x hx
      rw [hold, List.mem_append]
      exact hx
    have holdnd := inv.htnd
    rw [hold, List.nodup_append] at holdnd
    refine ⟨?_, ?_, c1, fun j hj => inv.hvtask j (c2 j hj), ?_, ?_, ?_,
      c4 inv.hknd, fun s hs => inv.hkeys s (c3 s hs)⟩
    · simpa [List.length_set] using inv.hlen
    · intro n
      by_cases hn : n = i
      · subst hn
        have hlt : n < st.1.length := (List.getElem?_eq_some.mp hg).1
        have hset : (st.1.set n { it with child_items :=
            (it.child_items.foldl (procEntry st.1) ([], st.2)).1 })[n]? =
            some { it with child_items :=
              (it.child_items.foldl (procEntry st.1) ([], st.2)).1 } := by
          rw [List.getElem?_set_self', List.getElem?_eq_getElem hlt]
          rfl
        rw [hset, ← inv.hid n, hg]
        rfl
      · rw [List.getElem?_set_ne (fun hh => hn hh.symm)]
        exact inv.hid n
    · -- no duplicate embedded occurrence
      rw [hnew', List.nodup_append]
      refine ⟨holdnd.1, ?_, ?_⟩
      · rw [List.nodup_append]
        refine ⟨c5, holdnd.2.1, ?_⟩
        intro x hx
        have hxv := c7' x hx
        exact fun hxT => inv.hdisj x hxv (hT x (Or.inr hxT))
      · intro x hxT₁
        rw [List.mem_append]
        rintro (hx | hx)
        · exact inv.hdisj x (c7' x hx) (hT x (Or.inl hxT₁))
        · exact holdnd.2.2 hxT₁ hx
    · intro j hj
      rw [hnew', List.mem_append, List.mem_append] at hj
      rcases hj with hj | hj | hj
      · exact inv.httask j (hT j (Or.inl hj))
      · exact inv.hvtask j (c7' j hj)
      · exact inv.httask j (hT j (Or.inr hj))
    · intro j hj
      rw [hnew', List.mem_append, List.mem_append]
      rintro (hx | hx | hx)
      · exact inv.hdisj j (c2 j hj) (hT j (Or.inl hx))
      · exact c6 j hx hj
      · exact inv.hdisj j (c2 j hj) (hT j (Or.inr hx))

/-- A whole pass (or both passes) preserves the invariant when the processed
positions are pairwise distinct and still untouched. -/
theorem foldl_stepItem_inv (items : List EItem) :
    ∀ (l : List Nat) (st : List PItem × List (String × Nat)),
      StateInv items st → l.Nodup →
      (∀ j ∈ l, st.1[j]? = (initHeap items)[j]?) →
      StateInv items (l.foldl stepItem st) := by
  intro l
  induction l with
  | nil => intro st inv _ _; exact inv
  | cons j₀ rest ih =>
    intro st inv hnd hfresh
    rw [List.foldl_cons]
    rw [List.nodup_cons] at hnd
    refine ih _ (stepItem_inv items st j₀ inv (hfresh j₀ (List.mem_cons_self _ _)))
      hnd.2 ?_
    intro j hj
    have hne : j₀ ≠ j := fun hh => hnd.1 (hh ▸ hj)
    rw [stepItem_heap_get_ne st j₀ j hne]
    exact hfresh j (List.mem_cons_of_mem _ hj)

theorem mem_taskIdxs_lt (items : List EItem) (j : Nat) (h : j ∈ taskIdxs items) :
    j < items.length :=
  List.mem_range.mp (List.mem_of_mem_filter h)

theorem mem_storyIdxs_lt (items : List EItem) (j : Nat) (h : j ∈ storyIdxs items) :
    j < items.length :=
  List.mem_range.mp (List.mem_of_mem_filter h)

theorem taskIdxs_nodup (items : List EItem) : (taskIdxs items).Nodup :=
  (List.nodup_range items.length).filter _

theorem storyIdxs_nodup (items : List EItem) : (storyIdxs items).Nodup :=
  (List.nodup_range items.length).filter _

theorem not_mem_storyIdxs_of_mem_taskIdxs (items : List EItem) (j : Nat)
    (h : j ∈ taskIdxs items) : j ∉ storyIdxs items := by
  intro hs
  have h1 := List.of_mem_filter h
  have h2 := List.of_mem_filter hs
  rw [decide_eq_true_iff] at h1 h2
  rw [h1] at h2
  exact absurd h2 (by decide)

theorem mem_keys_dictInsert {α : Type} (k : String) (v : α) (m : List (String × α))
    (s : String) (h : s ∈ (dictInsert k v m).map Prod.fst) :
    s = k ∨ s ∈ m.map Prod.fst := by
  rcases List.mem_map.mp h with ⟨kv, hkv, hs⟩
  rcases mem_dictInsert _ _ _ _ hkv with h1 | h1
  · subst h1; exact Or.inl hs.symm
  · exact Or.inr (hs ▸ List.mem_map_of_mem Prod.fst h1)

/-- Properties of the `task_map` construction fold. -/
theorem foldl_initMap_spec (items : List EItem) :
    ∀ (l : List Nat) (m₀ : List (String × Nat)),
      (m₀.map Prod.snd).Nodup → (∀ x ∈ m₀.map Prod.snd, x ∉ l) → l.Nodup →
      ((l.foldl (fun m i => dictInsert (normalize_task_name (summaryAt items i)) i m)
          m₀).map Prod.snd).Nodup ∧
      (∀ x ∈ (l.foldl (fun m i =>
          dictInsert (normalize_task_name (summaryAt items i)) i m) m₀).map Prod.snd,
        x ∈ m₀.map Prod.snd ∨ x ∈ l) ∧
      ((m₀.map Prod.fst).Nodup → ((l.foldl (fun m i =>
          dictInsert (normalize_task_name (summaryAt items i)) i m) m₀).map
          Prod.fst).Nodup) ∧
      (∀ s ∈ (l.foldl (fun m i =>
          dictInsert (normalize_task_name (summaryAt items i)) i m) m₀).map Prod.fst,
        s ∈ m₀.map Prod.fst ∨
          ∃ jj ∈ l, s = normalize_task_name (summaryAt items jj)) := by
  intro l
  induction l with
  | nil =>
    intro m₀ hvnd _ _
    exact ⟨hvnd, fun x hx => Or.inl hx, fun hk => hk, fun s hs => Or.inl hs⟩
  | cons i₀ rest ih =>
    intro m₀ hvnd hfresh hnd
    rw [List.foldl_cons]
    rw [List.nodup_cons] at hnd
    have hv0 : i₀ ∉ m₀.map Prod.snd :=
      fun hm => hfresh i₀ hm (List.mem_cons_self _ _)
    obtain ⟨c1, c2, c3, c4⟩ := ih
      (dictInsert (normalize_task_name (summaryAt items i₀)) i₀ m₀)
      (nodup_values_dictInsert _ _ _ hvnd hv0)
      (by
        intro x hx hmem
        rcases mem_values_dictInsert _ _ _ _ hx with h1 | h1
        · exact hnd.1 (h1 ▸ hmem)
        · exact hfresh x h1 (List.mem_cons_of_mem _ hmem))
      hnd.2
    refine ⟨c1, fun x hx => ?_, fun hk => c3 (nodup_keys_dictInsert _ _ _ hk),
      fun s hs => ?_⟩
    · rcases c2 x hx with h1 | h1
      · rcases mem_values_dictInsert _ _ _ _ h1 with h2 | h2
        · exact Or.inr (h2 ▸ List.mem_cons_self _ _)
        · exact Or.inl h2
      · exact Or.inr (List.mem_cons_of_mem _ h1)
    · rcases c4 s hs with h1 | h1
      · rcases mem_keys_dictInsert _ _ _ _ h1 with h2 | h2
        · exact Or.inr ⟨i₀, List.mem_cons_self _ _, h2⟩
        · exact Or.inl h2
      · obtain ⟨jj, hjj, hjs⟩ := h1
        exact Or.inr ⟨jj, List.mem_cons_of_mem _ hjj, hjs⟩

/-- The initial state satisfies the invariant. -/
theorem initStateInv (items : List EItem) :
    StateInv items (initHeap items, initMap items) := by
  obtain ⟨c1, c2, c3, c4⟩ := foldl_initMap_spec items (taskIdxs items) []
    List.nodup_nil (by simp) (taskIdxs_nodup items)
  refine ⟨by simp [initHeap], ?_, c1, ?_, ?_, ?_, ?_, c3 List.nodup_nil, ?_⟩
  · intro i
    unfold initHeap
    rw [List.getElem?_map]
    cases items[i]? <;> rfl
  · intro j hj
    rcases c2 j hj with h1 | h1
    · simp at h1
    · exact h1
  · rw [heapTargets_initHeap]
    exact List.nodup_nil
  · intro j hj
    rw [heapTargets_initHeap] at hj
    simp at hj
  · intro j _ hj
    rw [heapTargets_initHeap] at hj
    simp at hj
  · intro s hs
    rcases c4 s hs with h1 | h1
    · simp at h1
    · exact h1

/-- The invariant holds at the end of both passes. -/
theorem reorganizeState_inv (items : List EItem) :
    StateInv items (reorganizeState items) := by
  unfold reorganizeState
  refine foldl_stepItem_inv items (taskIdxs items ++ storyIdxs items)
    (initHeap items, initMap items) (initStateInv items) ?_ (fun j _ => rfl)
  rw [List.nodup_append]
  exact ⟨taskIdxs_nodup items, storyIdxs_nodup items,
    fun j hj => not_mem_storyIdxs_of_mem_taskIdxs items j hj⟩

/-- The id of a valid position in the final heap is the catalogue id there. -/
theorem idAt_reorganize (items : List EItem) (x : Nat) (hx : x < items.length) :
    idAt (reorganizeState items).1 x = (items.get ⟨x, hx⟩).id := by
  unfold idAt
  rw [(reorganizeState_inv items).hid x, List.getElem?_eq_getElem hx]
  rfl

/-- Claim C1 (amended) — the no-duplication half of the claim, together with
soundness: writing the reconciled output as the list of top-level positions
plus every embedded-child occurrence anywhere in the heap, no catalogue item
occurs twice (each item is a top-level entry or is embedded under exactly one
parent, never both), every occurrence is a catalogue position, and — when the
catalogue ids are distinct — the identifiers at those occurrences are distinct
identifiers of the catalogue.  (The no-loss half of the original claim is
false: non-Story/Task items, name-collision losers and reference cycles can
drop out of the output.) -/
theorem reorganize_no_duplication (items : List EItem)
    (hids : (items.map EItem.id).Nodup) :
    (topIdxs items ++ heapTargets (reorganizeState items).1).Nodup ∧
    (∀ i ∈ topIdxs items ++ heapTargets (reorganizeState items).1, i < items.length) ∧
    ((topIdxs items ++ heapTargets (reorganizeState items).1).map
      (idAt (reorganizeState items).1)).Nodup ∧
    (∀ s ∈ (topIdxs items ++ heapTargets (reorganizeState items).1).map
      (idAt (reorganizeState items).1), s ∈ items.map EItem.id) := by
  have inv := reorganizeState_inv items
  have hvalid : ∀ i ∈ topIdxs items ++ heapTargets (reorganizeState items).1,
      i < items.length := by
    intro i hi
    rw [List.mem_append] at hi
    rcases hi with hi | hi
    · unfold topIdxs at hi
      rw [List.mem_append] at hi
      rcases hi with hi | hi
      · exact mem_storyIdxs_lt items i hi
      · exact mem_taskIdxs_lt items i (inv.hvtask i hi)
    · exact mem_taskIdxs_lt items i (inv.httask i hi)
  have hnd : (topIdxs items ++ heapTargets (reorganizeState items).1).Nodup := by
    unfold topIdxs
    rw [List.append_assoc, List.nodup_append]
    refine ⟨storyIdxs_nodup items, ?_, ?_⟩
    · rw [List.nodup_append]
      refine ⟨inv.hvnd, inv.htnd, fun j hj => inv.hdisj j hj⟩
    · intro j hjs
      rw [List.mem_append]
      rintro (hj | hj)
      · exact not_mem_storyIdxs_of_mem_taskIdxs items j (inv.hvtask j hj) hjs
      · exact not_mem_storyIdxs_of_mem_taskIdxs items j (inv.httask j hj) hjs
  refine ⟨hnd, hvalid, ?_, ?_⟩
  · refine List.Nodup.map_on ?_ hnd
    intro x hx y hy hxy
    have hxl := hvalid x hx
    have hyl := hvalid y hy
    rw [idAt_reorganize items x hxl, idAt_reorganize items y hyl] at hxy
    have hmapx : (items.map EItem.id).get ⟨x, by simpa using hxl⟩ =
        (items.get ⟨x, hxl⟩).id := by
      rw [List.get_map]
    have hmapy : (items.map EItem.id).get ⟨y, by simpa using hyl⟩ =
        (items.get ⟨y, hyl⟩).id := by
      rw [List.get_map]
    have := (hids.get_inj_iff (i := ⟨x, by simpa using hxl⟩)
      (j := ⟨y, by simpa using hyl⟩)).mp (by rw [hmapx, hmapy]; exact hxy)
    simpa using congrArg Fin.val this
  · intro s hs
    rcases List.mem_map.mp hs with ⟨x, hx, hxs⟩
    have hxl := hvalid x hx
    rw [← hxs, idAt_reorganize items x hxl]
    exact List.mem_map_of_mem EItem.id (List.get_mem items x hxl)

theorem reorganize_no_duplication_witness :
    (topIdxs [(⟨"1", "T", "Task", []⟩ : EItem)] ++
      heapTargets (reorganizeState [(⟨"1", "T", "Task", []⟩ : EItem)]).1).Nodup ∧
    (∀ i ∈ topIdxs [(⟨"1", "T", "Task", []⟩ : EItem)] ++
      heapTargets (reorganizeState [(⟨"1", "T", "Task", []⟩ : EItem)]).1,
      i < ([(⟨"1", "T", "Task", []⟩ : EItem)] : List EItem).length) ∧
    ((topIdxs [(⟨"1", "T", "Task", []⟩ : EItem)] ++
      heapTargets (reorganizeState [(⟨"1", "T", "Task", []⟩ : EItem)]).1).map
      (idAt (reorganizeState [(⟨"1", "T", "Task", []⟩ : EItem)]).1)).Nodup ∧
    (∀ s ∈ (topIdxs [(⟨"1", "T", "Task", []⟩ : EItem)] ++
      heapTargets (reorganizeState [(⟨"1", "T", "Task", []⟩ : EItem)]).1).map
      (idAt (reorganizeState [(⟨"1", "T", "Task", []⟩ : EItem)]).1),
      s ∈ ([(⟨"1", "T", "Task", []⟩ : EItem)] : List EItem).map EItem.id) :=
  reorganize_no_duplication [(⟨"1", "T", "Task", []⟩ : EItem)] (by decide)

/-! ### Retention of unresolved references (claim C7) -/

theorem dictGet_none_iff {α : Type} (m : List (String × α)) (k : String) :
    dictGet m k = none ↔ k ∉ m.map Prod.fst := by
  induction m with
  | nil => simp [dictGet]
  | cons kv rest ih =>
    obtain ⟨k', v'⟩ := kv
    by_cases hk : k' = k
    · subst hk
      simp [dictGet]
    · simp [dictGet, hk, ih, Ne.symm hk]

theorem dictPop_fst_none (k : String) (m : List (String × Nat))
    (h : k ∉ m.map Prod.fst) : (dictPop k m).1 = none := by
  induction m with
  | nil => rfl
  | cons kv rest ih =>
    obtain ⟨k', v'⟩ := kv
    rw [List.map_cons, List.mem_cons, not_or] at h
    have hne : ¬ k' = k := fun hh => h.1 hh.symm
    simp only [dictPop, if_neg hne]
    exact ih h.2

theorem foldl_stepItem_heap_get_ne (l : List Nat) :
    ∀ (st : List PItem × List (String × Nat)) (i : Nat), i ∉ l →
      ((l.foldl stepItem st).1)[i]? = st.1[i]? := by
  induction l with
  | nil => intro st i _; rfl
  | cons j₀ rest ih =>
    intro st i hi
    rw [List.mem_cons, not_or] at hi
    rw [List.foldl_cons, ih _ i hi.2, stepItem_heap_get_ne st j₀ i (fun hh => hi.1 hh.symm)]

/-- Once a binding sits in the rebuilt `new_child_items` and no later entry
can write its key again, it survives to the end of the item's fold. -/
theorem procEntry_fold_keep (heap : List PItem) :
    ∀ (entries acc : List (String × CEntry)) (m : List (String × Nat))
      (k : String) (E : CEntry),
      dictGet acc k = some E →
      (∀ e ∈ entries, e.1 ≠ k) →
      (∀ j ∈ m.map Prod.snd, idAt heap j ≠ k) →
      dictGet (entries.foldl (procEntry heap) (acc, m)).1 k = some E := by
  intro entries
  induction entries with
  | nil => intro acc m k E hacc _ _; exact hacc
  | cons e rest ih =>
    intro acc m k E hacc hkeys hvals
    obtain ⟨k₀, ce⟩ := e
    have hk₀ : k₀ ≠ k := hkeys (k₀, ce) (List.mem_cons_self _ _)
    rw [List.foldl_cons]
    cases ce with
    | ptr j =>
      show dictGet (List.foldl (procEntry heap)
        (dictInsert k₀ (CEntry.ptr j) acc, m) rest).1 k = some E
      exact ih _ m k E (by rw [dictGet_dictInsert_ne _ _ _ _ hk₀]; exact hacc)
        (fun e he => hkeys e (List.mem_cons_of_mem _ he)) hvals
    | lbl name =>
      cases hpop : dictPop (normalize_task_name name) m with
      | mk o m₂ =>
        cases o with
        | none =>
          have hstep : procEntry heap (acc, m) (k₀, CEntry.lbl name) =
              (dictInsert k₀ (CEntry.lbl name) acc, m) := by
            show procEntryPop heap (acc, m) k₀ name
              (dictPop (normalize_task_name name) m) = _
            rw [hpop]
            rfl
          rw [hstep]
          exact ih _ m k E (by rw [dictGet_dictInsert_ne _ _ _ _ hk₀]; exact hacc)
            (fun e he => hkeys e (List.mem_cons_of_mem _ he)) hvals
        | some jj =>
          have hstep : procEntry heap (acc, m) (k₀, CEntry.lbl name) =
              (dictInsert (idAt heap jj) (CEntry.ptr jj) acc, m₂) := by
            show procEntryPop heap (acc, m) k₀ name
              (dictPop (normalize_task_name name) m) = _
            rw [hpop]
            rfl
          rw [hstep]
          have hps := dictPop_some_spec _ _ _ _ hpop
          exact ih _ m₂ k E
            (by rw [dictGet_dictInsert_ne _ _ _ _ (hvals jj hps.1)]; exact hacc)
            (fun e he => hkeys e (List.mem_cons_of_mem _ he))
            (fun j hj => hvals j (hps.2.1 j hj))

/-- A reference whose normalized label is not a key of the map is retained
verbatim in the rebuilt `new_child_items`. -/
theorem procEntry_fold_reach (heap : List PItem) :
    ∀ (entries acc : List (String × CEntry)) (m : List (String × Nat))
      (k v : String),
      (k, CEntry.lbl v) ∈ entries →
      (entries.map Prod.fst).Nodup →
      normalize_task_name v ∉ m.map Prod.fst →
      (∀ j ∈ m.map Prod.snd, idAt heap j ≠ k) →
      dictGet (entries.foldl (procEntry heap) (acc, m)).1 k = some (CEntry.lbl v) := by
  intro entries
  induction entries with
  | nil => intro acc m k v hmem; simp at hmem
  | cons e rest ih =>
    intro acc m k v hmem hknd hmiss hvals
    obtain ⟨k₀, ce⟩ := e
    rw [List.map_cons, List.nodup_cons] at hknd
    by_cases hk₀ : k₀ = k
    · subst hk₀
      have hce : ce = CEntry.lbl v := by
        rcases List.mem_cons.mp hmem with h1 | h1
        · exact ((Prod.mk.injEq .. ▸ h1).2).symm
        · exact absurd (List.mem_map_of_mem Prod.fst h1) hknd.1
      subst hce
      rw [List.foldl_cons]
      have hpop : dictPop (normalize_task_name v) m = (none, (dictPop (normalize_task_name v) m).2) := by
        have := dictPop_fst_none (normalize_task_name v) m hmiss
        cases hpp : dictPop (normalize_task_name v) m with
        | mk o m₂ =>
          rw [hpp] at this
          simp only at this
          rw [this]
      have hstep : procEntry heap (acc, m) (k₀, CEntry.lbl v) =
          (dictInsert k₀ (CEntry.lbl v) acc, m) := by
        show procEntryPop heap (acc, m) k₀ v
          (dictPop (normalize_task_name v) m) = _
        rw [hpop]
        rfl
      rw [hstep]
      exact procEntry_fold_keep heap rest _ m k₀ (CEntry.lbl v)
        (dictGet_dictInsert_self _ _ _)
        (fun e he hh => hknd.1 (by
          have h1 : e.1 ∈ rest.map Prod.fst := List.mem_map_of_mem Prod.fst he
          rwa [hh] at h1))
        hvals
    · have hmem' : (k, CEntry.lbl v) ∈ rest := by
        rcases List.mem_cons.mp hmem with h1 | h1
        · exact absurd ((Prod.mk.injEq .. ▸ h1).1) (fun hh => hk₀ hh.symm)
        · exact h1
      rw [List.foldl_cons]
      cases ce with
      | ptr j =>
        exact ih _ m k v hmem' hknd.2 hmiss hvals
      | lbl name =>
        cases hpop : dictPop (normalize_task_name name) m with
        | mk o m₂ =>
          cases o with
          | none =>
            have hstep : procEntry heap (acc, m) (k₀, CEntry.lbl name) =
                (dictInsert k₀ (CEntry.lbl name) acc, m) := by
              show procEntryPop heap (acc, m) k₀ name
                (dictPop (normalize_task_name name) m) = _
              rw [hpop]
              rfl
            rw [hstep]
            exact ih _ m k v hmem' hknd.2 hmiss hvals
          | some jj =>
            have hstep : procEntry heap (acc, m) (k₀, CEntry.lbl name) =
                (dictInsert (idAt heap jj) (CEntry.ptr jj) acc, m₂) := by
              show procEntryPop heap (acc, m) k₀ name
                (dictPop (normalize_task_name name) m) = _
              rw [hpop]
              rfl
            rw [hstep]
            have hps := dictPop_some_spec _ _ _ _ hpop
            exact ih _ m₂ k v hmem' hknd.2
              (fun hh => hmiss (hps.2.2.1 _ hh))
              (fun j hj => hvals j (hps.2.1 j hj))

/-- The id of any position under the invariant is the catalogue id. -/
theorem idAt_of_inv (items : List EItem) (st : List PItem × List (String × Nat))
    (inv : StateInv items st) (j : Nat) : idAt st.1 j = idOf items j := by
  unfold idAt idOf
  rw [inv.hid j]

/-- The pass list of both passes, duplicate-free. -/
theorem passIdxs_nodup (items : List EItem) :
    (taskIdxs items ++ storyIdxs items).Nodup := by
  rw [List.nodup_append]
  exact ⟨taskIdxs_nodup items, storyIdxs_nodup items,
    fun j hj => not_mem_storyIdxs_of_mem_taskIdxs items j hj⟩

theorem mem_taskIdxs_of (items : List EItem) (i : Nat) (hlt : i < items.length)
    (ht : typeAt items i = "Task") : i ∈ taskIdxs items :=
  List.mem_filter.mpr ⟨List.mem_range.mpr hlt, by rw [decide_eq_true_iff]; exact ht⟩

theorem mem_storyIdxs_of (items : List EItem) (i : Nat) (hlt : i < items.length)
    (ht : typeAt items i = "Story") : i ∈ storyIdxs items :=
  List.mem_filter.mpr ⟨List.mem_range.mpr hlt, by rw [decide_eq_true_iff]; exact ht⟩

/-- Claim C7 — a reference whose normalized label matches no task summary in
the catalogue is retained verbatim, as the same (key, label) binding, in its
parent's reconciled `child_items`; the reconciliation is a total function, so
it completes without raising.  (Hypotheses: the parent is a `'Task'` or
`'Story'` item, so it is processed at all; its reference keys are unique, and
no catalogue id collides with the reference key — otherwise a later binding
of the same key would overwrite this one.) -/
theorem reorganize_retains_unresolved (items : List EItem) (i : Nat) (k v : String)
    (hlt : i < items.length)
    (htype : typeAt items i = "Task" ∨ typeAt items i = "Story")
    (hentry : (k, v) ∈ childAt items i)
    (hkeysnd : ((childAt items i).map Prod.fst).Nodup)
    (hmiss : ∀ j ∈ taskIdxs items,
      normalize_task_name (summaryAt items j) ≠ normalize_task_name v)
    (hkid : ∀ j : Nat, j < items.length → idOf items j ≠ k) :
    ∃ it, ((reorganizeState items).1)[i]? = some it ∧
      dictGet it.child_items k = some (CEntry.lbl v) := by
  have hpassmem : i ∈ taskIdxs items ++ storyIdxs items := by
    rw [List.mem_append]
    rcases htype with ht | ht
    · exact Or.inl (mem_taskIdxs_of items i hlt ht)
    · exact Or.inr (mem_storyIdxs_of items i hlt ht)
  obtain ⟨pre, post, hsplit⟩ := List.append_of_mem hpassmem
  have hnd := passIdxs_nodup items
  rw [hsplit, List.nodup_append] at hnd
  have hpost : i ∉ post := (List.nodup_cons.mp hnd.2.1).1
  have hpre : i ∉ pre := fun hm => hnd.2.2 hm (List.mem_cons_self _ _)
  have hfull : reorganizeState items =
      post.foldl stepItem (stepItem (pre.foldl stepItem
        (initHeap items, initMap items)) i) := by
    unfold reorganizeState
    rw [hsplit, List.foldl_append, List.foldl_cons]
  have inv1 : StateInv items (pre.foldl stepItem (initHeap items, initMap items)) :=
    foldl_stepItem_inv items pre _ (initStateInv items) hnd.1 (fun j _ => rfl)
  have hheap1 : (pre.foldl stepItem (initHeap items, initMap items)).1[i]? =
      (initHeap items)[i]? :=
    foldl_stepItem_heap_get_ne pre _ i hpre
  have hbase : items[i]? = some (items.get ⟨i, hlt⟩) := List.getElem?_eq_getElem hlt
  have hinit_i : (initHeap items)[i]? = some
      ⟨(items.get ⟨i, hlt⟩).id, (items.get ⟨i, hlt⟩).summary, (items.get ⟨i, hlt⟩).type,
        (items.get ⟨i, hlt⟩).child_items.map fun kv => (kv.1, CEntry.lbl kv.2)⟩ := by
    unfold initHeap
    rw [List.getElem?_map, hbase]
    rfl
  have hchild : childAt items i = (items.get ⟨i, hlt⟩).child_items := by
    unfold childAt
    rw [hbase]
    rfl
  set st1 := pre.foldl stepItem (initHeap items, initMap items) with hst1
  set it₀ : PItem :=
    ⟨(items.get ⟨i, hlt⟩).id, (items.get ⟨i, hlt⟩).summary, (items.get ⟨i, hlt⟩).type,
      (items.get ⟨i, hlt⟩).child_items.map fun kv => (kv.1, CEntry.lbl kv.2)⟩ with hit₀
  have hstep : stepItem st1 i =
      (st1.1.set i { it₀ with child_items :=
        (it₀.child_items.foldl (procEntry st1.1) ([], st1.2)).1 },
       (it₀.child_items.foldl (procEntry st1.1) ([], st1.2)).2) := by
    unfold stepItem
    rw [hheap1, hinit_i]
    rfl
  have hreach : dictGet (it₀.child_items.foldl (procEntry st1.1) ([], st1.2)).1 k =
      some (CEntry.lbl v) := by
    apply procEntry_fold_reach st1.1 it₀.child_items [] st1.2 k v
    · rw [hit₀]
      simp only
      rw [← hchild]
      exact List.mem_map_of_mem _ hentry
    · rw [hit₀]
      simp only
      rw [← hchild]
      have : ((childAt items i).map fun kv => (kv.1, CEntry.lbl kv.2)).map Prod.fst =
          (childAt items i).map Prod.fst := by
        rw [List.map_map]
        rfl
      rw [this]
      exact hkeysnd
    · intro hmem
      obtain ⟨jj, hjj, hjs⟩ := inv1.hkeys _ hmem
      exact hmiss jj hjj hjs.symm
    · intro j hj
      rw [idAt_of_inv items st1 inv1 j]
      exact hkid j (mem_taskIdxs_lt items j (inv1.hvtask j hj))
  refine ⟨{ it₀ with child_items :=
    (it₀.child_items.foldl (procEntry st1.1) ([], st1.2)).1 }, ?_, hreach⟩
  rw [hfull, foldl_stepItem_heap_get_ne post _ i hpost, hstep]
  have hlt1 : i < st1.1.length := by
    rw [inv1.hlen]
    exact hlt
  rw [List.getElem?_set_self', List.getElem?_eq_getElem hlt1]
  rfl

theorem reorganize_retains_unresolved_witness :
    ∃ it, ((reorganizeState [(⟨"1", "P", "Task", [("kk", "missing")]⟩ : EItem)]).1)[0]? =
        some it ∧
      dictGet it.child_items "kk" = some (CEntry.lbl "missing") :=
  reorganize_retains_unresolved [(⟨"1", "P", "Task", [("kk", "missing")]⟩ : EItem)]
    0 "kk" "missing" (by decide) (Or.inl (by decide)) (by decide) (by decide)
    (by decide) (by decide)

/-! ### Pass-1-before-pass-2 priority (claim C6): map tracking lemmas -/

theorem dictPop_get_ne (k n : String) (m : List (String × Nat)) (j : Nat)
    (m' : List (String × Nat)) (h : dictPop k m = (some j, m')) (hkn : k ≠ n) :
    dictGet m' n = dictGet m n := by
  induction m generalizing m' with
  | nil => simp [dictPop] at h
  | cons kv rest ih =>
    obtain ⟨k₀, v₀⟩ := kv
    by_cases hk : k₀ = k
    · subst hk
      simp only [dictPop, if_pos rfl] at h
      obtain ⟨h1, h2⟩ := Prod.mk.injEq .. ▸ h
      subst h2
      have hk₀n : ¬ k₀ = n := fun hh => hkn (hh ▸ rfl)
      simp [dictGet, hk₀n]
    · simp only [dictPop, if_neg hk] at h
      cases hrec : dictPop k rest with
      | mk r₁ r₂ =>
        rw [hrec] at h
        simp only at h
        obtain ⟨h1, h2⟩ := Prod.mk.injEq .. ▸ h
        subst h2
        by_cases hk₀n : k₀ = n
        · simp [dictGet, hk₀n]
        · simp only [dictGet, if_neg hk₀n]
          exact ih r₂ (by rw [hrec, h1])

theorem dictPop_get_none (k n : String) (m : List (String × Nat))
    (h : dictGet m n = none) : dictGet (dictPop k m).2 n = none := by
  induction m with
  | nil => exact h
  | cons kv rest ih =>
    obtain ⟨k₀, v₀⟩ := kv
    by_cases hk₀n : k₀ = n
    · subst hk₀n
      simp [dictGet] at h
    · simp only [dictGet, if_neg hk₀n] at h
      by_cases hk : k₀ = k
      · simp only [dictPop, if_pos hk]
        exact h
      · simp only [dictPop, if_neg hk, dictGet, if_neg hk₀n]
        exact ih h

theorem dictPop_fst_of_get (n : String) (m : List (String × Nat)) (c : Nat)
    (h : dictGet m n = some c) : (dictPop n m).1 = some c := by
  induction m with
  | nil => simp [dictGet] at h
  | cons kv rest ih =>
    obtain ⟨k₀, v₀⟩ := kv
    by_cases hk₀n : k₀ = n
    · subst hk₀n
      simp only [dictGet, if_pos rfl] at h
      simp only [dictPop, if_pos rfl]
      exact h
    · simp only [dictGet, if_neg hk₀n] at h
      simp only [dictPop, if_neg hk₀n]
      exact ih h

theorem dictPop_some_get_none (n : String) (m : List (String × Nat)) (c : Nat)
    (m₂ : List (String × Nat)) (hknd : (m.map Prod.fst).Nodup)
    (h : dictPop n m = (some c, m₂)) : dictGet m₂ n = none := by
  induction m generalizing m₂ with
  | nil => simp [dictPop] at h
  | cons kv rest ih =>
    obtain ⟨k₀, v₀⟩ := kv
    rw [List.map_cons, List.nodup_cons] at hknd
    by_cases hk : k₀ = n
    · subst hk
      simp only [dictPop, if_pos rfl] at h
      obtain ⟨h1, h2⟩ := Prod.mk.injEq .. ▸ h
      subst h2
      rw [dictGet_none_iff]
      exact hknd.1
    · simp only [dictPop, if_neg hk] at h
      cases hrec : dictPop n rest with
      | mk r₁ r₂ =>
        rw [hrec] at h
        simp only at h
        obtain ⟨h1, h2⟩ := Prod.mk.injEq .. ▸ h
        subst h2
        simp only [dictGet, if_neg hk]
        exact ih r₂ hknd.2 (by rw [hrec, h1])

theorem mem_values_of_dictGet (m : List (String × Nat)) (n : String) (c : Nat)
    (h : dictGet m n = some c) : c ∈ m.map Prod.snd := by
  induction m with
  | nil => simp [dictGet] at h
  | cons kv rest ih =>
    obtain ⟨k₀, v₀⟩ := kv
    by_cases hk₀ : k₀ = n
    · subst hk₀
      simp only [dictGet, if_pos rfl] at h
      cases h
      simp
    · simp only [dictGet, if_neg hk₀] at h
      simp only [List.map_cons, List.mem_cons]
      exact Or.inr (ih h)

theorem dictPop_ne_value (k n : String) (m : List (String × Nat)) (c j : Nat)
    (m' : List (String × Nat)) (hkn : k ≠ n) (hvnd : (m.map Prod.snd).Nodup)
    (hget : dictGet m n = some c) (hpop : dictPop k m = (some j, m')) :
    j ≠ c ∧ dictGet m' n = some c := by
  have hps := dictPop_some_spec _ _ _ _ hpop
  have hget' : dictGet m' n = some c := by
    rw [dictPop_get_ne k n m j m' hpop hkn]
    exact hget
  refine ⟨?_, hget'⟩
  intro hjc
  subst hjc
  exact (hps.2.2.2.1 hvnd).2 (mem_values_of_dictGet m' n j hget')

/-- The map values only shrink along one item's fold (unconditional). -/
theorem procEntry_fold_values_mono (heap : List PItem) :
    ∀ (entries acc : List (String × CEntry)) (m : List (String × Nat)),
      ∀ x ∈ (entries.foldl (procEntry heap) (acc, m)).2.map Prod.snd,
        x ∈ m.map Prod.snd := by
  intro entries
  induction entries with
  | nil => intro acc m x hx; exact hx
  | cons e rest ih =>
    intro acc m x hx
    obtain ⟨k₀, ce⟩ := e
    rw [List.foldl_cons] at hx
    cases ce with
    | ptr j => exact ih _ m x hx
    | lbl name =>
      cases hpop : dictPop (normalize_task_name name) m with
      | mk o m₂ =>
        cases o with
        | none =>
          have hstep : procEntry heap (acc, m) (k₀, CEntry.lbl name) =
              (dictInsert k₀ (CEntry.lbl name) acc, m) := by
            show procEntryPop heap (acc, m) k₀ name
              (dictPop (normalize_task_name name) m) = _
            rw [hpop]
            rfl
          rw [hstep] at hx
          exact ih _ m x hx
        | some jj =>
          have hstep : procEntry heap (acc, m) (k₀, CEntry.lbl name) =
              (dictInsert (idAt heap jj) (CEntry.ptr jj) acc, m₂) := by
            show procEntryPop heap (acc, m) k₀ name
              (dictPop (normalize_task_name name) m) = _
            rw [hpop]
            rfl
          rw [hstep] at hx
          exact (dictPop_some_spec _ _ _ _ hpop).2.1 x (ih _ m₂ x hx)

/-- A key absent from the map stays absent along one item's fold. -/
theorem procEntry_fold_get_none (heap : List PItem) (n : String) :
    ∀ (entries acc : List (String × CEntry)) (m : List (String × Nat)),
      dictGet m n = none →
      dictGet (entries.foldl (procEntry heap) (acc, m)).2 n = none := by
  intro entries
  induction entries with
  | nil => intro acc m h; exact h
  | cons e rest ih =>
    intro acc m h
    obtain ⟨k₀, ce⟩ := e
    rw [List.foldl_cons]
    cases ce with
    | ptr j => exact ih _ m h
    | lbl name =>
      cases hpop : dictPop (normalize_task_name name) m with
      | mk o m₂ =>
        cases o with
        | none =>
          have hstep : procEntry heap (acc, m) (k₀, CEntry.lbl name) =
              (dictInsert k₀ (CEntry.lbl name) acc, m) := by
            show procEntryPop heap (acc, m) k₀ name
              (dictPop (normalize_task_name name) m) = _
            rw [hpop]
            rfl
          rw [hstep]
          exact ih _ m h
        | some jj =>
          have hstep : procEntry heap (acc, m) (k₀, CEntry.lbl name) =
              (dictInsert (idAt heap jj) (CEntry.ptr jj) acc, m₂) := by
            show procEntryPop heap (acc, m) k₀ name
              (dictPop (normalize_task_name name) m) = _
            rw [hpop]
            rfl
          rw [hstep]
          apply ih
          have := dictPop_get_none (normalize_task_name name) n m h
          rw [hpop] at this
          exact this

/-- A key binding survives one item's fold when none of the item's labels
normalizes to it. -/
theorem procEntry_fold_get_keepmap (heap : List PItem) (n : String) :
    ∀ (entries acc : List (String × CEntry)) (m : List (String × Nat)),
      (∀ e ∈ entries, ∀ name : String, e.2 = CEntry.lbl name →
        normalize_task_name name ≠ n) →
      dictGet (entries.foldl (procEntry heap) (acc, m)).2 n = dictGet m n := by
  intro entries
  induction entries with
  | nil => intro acc m _; rfl
  | cons e rest ih =>
    intro acc m hno
    obtain ⟨k₀, ce⟩ := e
    rw [List.foldl_cons]
    cases ce with
    | ptr j => exact ih _ m (fun e he => hno e (List.mem_cons_of_mem _ he))
    | lbl name =>
      have hne : normalize_task_name name ≠ n :=
        hno (k₀, CEntry.lbl name) (List.mem_cons_self _ _) name rfl
      cases hpop : dictPop (normalize_task_name name) m with
      | mk o m₂ =>
        cases o with
        | none =>
          have hstep : procEntry heap (acc, m) (k₀, CEntry.lbl name) =
              (dictInsert k₀ (CEntry.lbl name) acc, m) := by
            show procEntryPop heap (acc, m) k₀ name
              (dictPop (normalize_task_name name) m) = _
            rw [hpop]
            rfl
          rw [hstep]
          exact ih _ m (fun e he => hno e (List.mem_cons_of_mem _ he))
        | some jj =>
          have hstep : procEntry heap (acc, m) (k₀, CEntry.lbl name) =
              (dictInsert (idAt heap jj) (CEntry.ptr jj) acc, m₂) := by
            show procEntryPop heap (acc, m) k₀ name
              (dictPop (normalize_task_name name) m) = _
            rw [hpop]
            rfl
          rw [hstep]
          rw [ih _ m₂ (fun e he => hno e (List.mem_cons_of_mem _ he))]
          exact dictPop_get_ne _ n m jj m₂ hpop hne

theorem mem_entriesPtrs_of (l : List (String × CEntry)) (k : String) (j : Nat)
    (h : (k, CEntry.ptr j) ∈ l) : j ∈ entriesPtrs l :=
  List.mem_filterMap.mpr ⟨(k, CEntry.ptr j), h, rfl⟩

theorem idOf_inj (items : List EItem) (hids : (items.map EItem.id).Nodup)
    (x y : Nat) (hx : x < items.length) (hy : y < items.length)
    (h : idOf items x = idOf items y) : x = y := by
  unfold idOf at h
  rw [List.getElem?_eq_getElem hx, List.getElem?_eq_getElem hy] at h
  simp only [Option.map_some', Option.getD_some] at h
  have hmapx : (items.map EItem.id).get ⟨x, by simpa using hx⟩ =
      (items.get ⟨x, hx⟩).id := by
    rw [List.get_map]
  have hmapy : (items.map EItem.id).get ⟨y, by simpa using hy⟩ =
      (items.get ⟨y, hy⟩).id := by
    rw [List.get_map]
  have := (hids.get_inj_iff (i := ⟨x, by simpa using hx⟩)
    (j := ⟨y, by simpa using hy⟩)).mp (by rw [hmapx, hmapy]; exact h)
  simpa using congrArg Fin.val this

/-- The two possible outcomes of `stepItem`. -/
theorem stepItem_eq (st : List PItem × List (String × Nat)) (i : Nat) :
    stepItem st i = st ∨
    ∃ it, st.1[i]? = some it ∧ stepItem st i =
      (st.1.set i { it with child_items :=
        (it.child_items.foldl (procEntry st.1) ([], st.2)).1 },
       (it.child_items.foldl (procEntry st.1) ([], st.2)).2) := by
  unfold stepItem
  cases hg : st.1[i]? with
  | none => exact Or.inl rfl
  | some it => exact Or.inr ⟨it, rfl, rfl⟩

theorem foldl_stepItem_get_none (n : String) :
    ∀ (l : List Nat) (st : List PItem × List (String × Nat)),
      dictGet st.2 n = none → dictGet ((l.foldl stepItem st)).2 n = none := by
  intro l
  induction l with
  | nil => intro st h; exact h
  | cons j₀ rest ih =>
    intro st h
    rw [List.foldl_cons]
    rcases stepItem_eq st j₀ with heq | ⟨it, _, heq⟩
    · rw [heq]; exact ih st h
    · rw [heq]
      exact ih _ (procEntry_fold_get_none st.1 n it.child_items [] st.2 h)

theorem foldl_stepItem_values_mono :
    ∀ (l : List Nat) (st : List PItem × List (String × Nat)) (x : Nat),
      x ∈ ((l.foldl stepItem st)).2.map Prod.snd → x ∈ st.2.map Prod.snd := by
  intro l
  induction l with
  | nil => intro st x h; exact h
  | cons j₀ rest ih =>
    intro st x h
    rw [List.foldl_cons] at h
    rcases stepItem_eq st j₀ with heq | ⟨it, _, heq⟩
    · rw [heq] at h; exact ih st x h
    · rw [heq] at h
      exact procEntry_fold_values_mono st.1 it.child_items [] st.2 x (ih _ x h)

theorem foldl_stepItem_get_keepmap (items : List EItem) (n : String) :
    ∀ (l : List Nat) (st : List PItem × List (String × Nat)),
      l.Nodup →
      (∀ j ∈ l, st.1[j]? = (initHeap items)[j]?) →
      (∀ j ∈ l, ∀ kv ∈ childAt items j, normalize_task_name kv.2 ≠ n) →
      dictGet ((l.foldl stepItem st)).2 n = dictGet st.2 n := by
  intro l
  induction l with
  | nil => intro st _ _ _; rfl
  | cons j₀ rest ih =>
    intro st hnd hfresh hno
    rw [List.nodup_cons] at hnd
    rw [List.foldl_cons]
    have hfresh' : ∀ j ∈ rest, (stepItem st j₀).1[j]? = (initHeap items)[j]? := by
      intro j hj
      rw [stepItem_heap_get_ne st j₀ j (fun hh => hnd.1 (hh ▸ hj))]
      exact hfresh j (List.mem_cons_of_mem _ hj)
    rcases stepItem_eq st j₀ with heq | ⟨it, hg, heq⟩
    · rw [heq]
      rw [heq] at hfresh'
      exact ih st hnd.2 hfresh' (fun j hj => hno j (List.mem_cons_of_mem _ hj))
    · obtain ⟨base, hbase, hform⟩ := initHeap_get items j₀ it
        ((hfresh j₀ (List.mem_cons_self _ _)) ▸ hg)
      have hchild : childAt items j₀ = base.child_items := by
        unfold childAt
        rw [hbase]
        rfl
      have hstep2 : dictGet (stepItem st j₀).2 n = dictGet st.2 n := by
        rw [heq]
        apply procEntry_fold_get_keepmap
        intro e he name hename
        rw [hform] at he
        simp only at he
        rcases List.mem_map.mp he with ⟨kv, hkv, hkve⟩
        rw [← hkve] at hename
        simp only at hename
        cases hename
        exact hno j₀ (List.mem_cons_self _ _) kv (hchild ▸ hkv)
      rw [ih _ hnd.2 hfresh' (fun j hj => hno j (List.mem_cons_of_mem _ hj)), hstep2]

theorem foldl_initMap_get_other (items : List EItem) (n : String) :
    ∀ (l : List Nat) (m₀ : List (String × Nat)),
      (∀ j ∈ l, normalize_task_name (summaryAt items j) ≠ n) →
      dictGet (l.foldl (fun m i =>
        dictInsert (normalize_task_name (summaryAt items i)) i m) m₀) n =
        dictGet m₀ n := by
  intro l
  induction l with
  | nil => intro m₀ _; rfl
  | cons i₀ rest ih =>
    intro m₀ hno
    rw [List.foldl_cons, ih _ (fun j hj => hno j (List.mem_cons_of_mem _ hj)),
      dictGet_dictInsert_ne _ _ _ _ (hno i₀ (List.mem_cons_self _ _))]

theorem foldl_initMap_get_unique (items : List EItem) (n : String) (c : Nat) :
    ∀ (l : List Nat) (m₀ : List (String × Nat)),
      c ∈ l → l.Nodup →
      normalize_task_name (summaryAt items c) = n →
      (∀ j ∈ l, j ≠ c → normalize_task_name (summaryAt items j) ≠ n) →
      dictGet (l.foldl (fun m i =>
        dictInsert (normalize_task_name (summaryAt items i)) i m) m₀) n = some c := by
  intro l
  induction l with
  | nil => intro m₀ hc; simp at hc
  | cons i₀ rest ih =>
    intro m₀ hc hnd hkeyc huniq
    rw [List.nodup_cons] at hnd
    rw [List.foldl_cons]
    by_cases hi₀ : i₀ = c
    · subst hi₀
      rw [foldl_initMap_get_other items n rest _
        (fun j hj hjn => huniq j (List.mem_cons_of_mem _ hj)
          (fun hh => hnd.1 (hh ▸ hj)) hjn)]
      rw [hkeyc]
      exact dictGet_dictInsert_self _ _ _
    · have hc' : c ∈ rest := by
        rcases List.mem_cons.mp hc with h1 | h1
        · exact absurd h1.symm hi₀
        · exact h1
      exact ih _ hc' hnd.2 hkeyc (fun j hj => huniq j (List.mem_cons_of_mem _ hj))

/-- The unique matching reference of the processed item pops its match `c`
out of the map and embeds it, keyed by `c`'s id; afterwards the binding of the
child's name is gone and `c` is out of the map for good. -/
theorem procEntry_fold_embed (heap : List PItem) (n : String) (c : Nat)
    (k₁ v₁ : String) :
    ∀ (entries acc : List (String × CEntry)) (m : List (String × Nat)),
      (∀ e ∈ entries, ∀ j : Nat, e.2 ≠ CEntry.ptr j) →
      (k₁, CEntry.lbl v₁) ∈ entries →
      (entries.map Prod.fst).Nodup →
      (∀ kv ∈ entries, ∀ name : String, kv.2 = CEntry.lbl name →
        normalize_task_name name = n → kv.1 = k₁ ∧ name = v₁) →
      normalize_task_name v₁ = n →
      dictGet m n = some c →
      (m.map Prod.snd).Nodup →
      (m.map Prod.fst).Nodup →
      (∀ j ∈ m.map Prod.snd, j ≠ c → idAt heap j ≠ idAt heap c) →
      (∀ kv ∈ entries, kv.1 ≠ idAt heap c) →
      dictGet (entries.foldl (procEntry heap) (acc, m)).1 (idAt heap c) =
        some (CEntry.ptr c) ∧
      dictGet (entries.foldl (procEntry heap) (acc, m)).2 n = none ∧
      c ∉ (entries.foldl (procEntry heap) (acc, m)).2.map Prod.snd := by
  intro entries
  induction entries with
  | nil => intro acc m _ hmem; simp at hmem
  | cons e rest ih =>
    intro acc m hlbl hmem hknd huniq hv₁ hget hvnd hkeysnd hkid hkeyne
    obtain ⟨k₀, ce⟩ := e
    cases ce with
    | ptr j => exact absurd rfl (hlbl (k₀, CEntry.ptr j) (List.mem_cons_self _ _) j)
    | lbl name =>
      rw [List.map_cons, List.nodup_cons] at hknd
      rw [List.foldl_cons]
      by_cases hk₀ : k₀ = k₁
      · subst hk₀
        have hname : name = v₁ := by
          rcases List.mem_cons.mp hmem with h1 | h1
          · have h2 : CEntry.lbl v₁ = CEntry.lbl name := (Prod.mk.injEq .. ▸ h1).2
            cases h2
            rfl
          · exact absurd (List.mem_map_of_mem Prod.fst h1) hknd.1
        subst hname
        have hpop1 : (dictPop (normalize_task_name name) m).1 = some c := by
          rw [hv₁]
          exact dictPop_fst_of_get n m c hget
        cases hpop : dictPop (normalize_task_name name) m with
        | mk o m₂ =>
          rw [hpop] at hpop1
          simp only at hpop1
          subst hpop1
          have hstep : procEntry heap (acc, m) (k₀, CEntry.lbl name) =
              (dictInsert (idAt heap c) (CEntry.ptr c) acc, m₂) := by
            show procEntryPop heap (acc, m) k₀ name
              (dictPop (normalize_task_name name) m) = _
            rw [hpop]
            rfl
          rw [hstep]
          have hpop' : dictPop n m = (some c, m₂) := by
            rw [← hv₁]
            exact hpop
          have hm₂none : dictGet m₂ n = none :=
            dictPop_some_get_none n m c m₂ hkeysnd hpop'
          have hps := dictPop_some_spec _ _ _ _ hpop
          have hcnotin : c ∉ m₂.map Prod.snd := (hps.2.2.2.1 hvnd).2
          refine ⟨?_, ?_, ?_⟩
          · apply procEntry_fold_keep heap rest _ m₂ (idAt heap c) (CEntry.ptr c)
              (dictGet_dictInsert_self _ _ _)
              (fun e he => hkeyne e (List.mem_cons_of_mem _ he))
            intro j hj
            exact hkid j (hps.2.1 j hj) (fun hh => hcnotin (hh ▸ hj))
          · exact procEntry_fold_get_none heap n rest _ m₂ hm₂none
          · intro hcmem
            exact hcnotin (procEntry_fold_values_mono heap rest _ m₂ c hcmem)
      · have hmem' : (k₁, CEntry.lbl v₁) ∈ rest := by
          rcases List.mem_cons.mp hmem with h1 | h1
          · exact absurd ((Prod.mk.injEq .. ▸ h1).1.symm) hk₀
          · exact h1
        have hnamen : normalize_task_name name ≠ n := by
          intro hh
          exact hk₀ (huniq (k₀, CEntry.lbl name) (List.mem_cons_self _ _) name rfl hh).1
        cases hpop : dictPop (normalize_task_name name) m with
        | mk o m₂ =>
          cases o with
          | none =>
            have hstep : procEntry heap (acc, m) (k₀, CEntry.lbl name) =
                (dictInsert k₀ (CEntry.lbl name) acc, m) := by
              show procEntryPop heap (acc, m) k₀ name
                (dictPop (normalize_task_name name) m) = _
              rw [hpop]
              rfl
            rw [hstep]
            exact ih _ m (fun e he => hlbl e (List.mem_cons_of_mem _ he)) hmem'
              hknd.2 (fun kv hkv => huniq kv (List.mem_cons_of_mem _ hkv)) hv₁ hget
              hvnd hkeysnd hkid (fun kv hkv => hkeyne kv (List.mem_cons_of_mem _ hkv))
          | some jj =>
            have hstep : procEntry heap (acc, m) (k₀, CEntry.lbl name) =
                (dictInsert (idAt heap jj) (CEntry.ptr jj) acc, m₂) := by
              show procEntryPop heap (acc, m) k₀ name
                (dictPop (normalize_task_name name) m) = _
              rw [hpop]
              rfl
            rw [hstep]
            have hps := dictPop_some_spec _ _ _ _ hpop
            obtain ⟨hjc, hget2⟩ :=
              dictPop_ne_value (normalize_task_name name) n m c jj m₂ hnamen hvnd
                hget hpop
            exact ih _ m₂ (fun e he => hlbl e (List.mem_cons_of_mem _ he)) hmem'
              hknd.2 (fun kv hkv => huniq kv (List.mem_cons_of_mem _ hkv)) hv₁ hget2
              (hps.2.2.2.1 hvnd).1 (hps.2.2.2.2 hkeysnd)
              (fun j hj => hkid j (hps.2.1 j hj))
              (fun kv hkv => hkeyne kv (List.mem_cons_of_mem _ hkv))

/-- Claim C6 — when a task-like item and a grouping (Story) item both
reference the same child task's name, the child ends up embedded under the
task (keyed by the child's id) and **not** under the story: pass 1 (tasks)
runs before pass 2 (stories) and the successful match removes the child from
the shared `task_map`, so the story's reference stays an unresolved label.
(Hypotheses make the scenario unambiguous: the child's normalized summary is
unique among tasks, the task `p` holds the only task-side reference to it,
reference keys are duplicate-free, and ids do not collide with reference
keys.) -/
theorem reorganize_prefers_task_parent (items : List EItem) (p c s : Nat)
    (k₁ v₁ k₂ v₂ : String)
    (hplt : p < items.length) (hclt : c < items.length) (hslt : s < items.length)
    (hptype : typeAt items p = "Task") (hctype : typeAt items c = "Task")
    (hstype : typeAt items s = "Story")
    (hids : (items.map EItem.id).Nodup)
    (hname_uniq : ∀ j ∈ taskIdxs items, j ≠ c →
      normalize_task_name (summaryAt items j) ≠ normalize_task_name (summaryAt items c))
    (hpentry : (k₁, v₁) ∈ childAt items p)
    (hpkeysnd : ((childAt items p).map Prod.fst).Nodup)
    (hv₁ : normalize_task_name v₁ = normalize_task_name (summaryAt items c))
    (href_uniq : ∀ j ∈ taskIdxs items, ∀ kv ∈ childAt items j,
      normalize_task_name kv.2 = normalize_task_name (summaryAt items c) →
      j = p ∧ kv.1 = k₁ ∧ kv.2 = v₁)
    (hpkeys : ∀ kv ∈ childAt items p, kv.1 ≠ idOf items c)
    (hsentry : (k₂, v₂) ∈ childAt items s)
    (hskeysnd : ((childAt items s).map Prod.fst).Nodup)
    (hsv : normalize_task_name v₂ = normalize_task_name (summaryAt items c))
    (hsk : ∀ j : Nat, j < items.length → idOf items j ≠ k₂) :
    (∃ itP, ((reorganizeState items).1)[p]? = some itP ∧
      dictGet itP.child_items (idOf items c) = some (CEntry.ptr c)) ∧
    (∃ itS, ((reorganizeState items).1)[s]? = some itS ∧
      dictGet itS.child_items k₂ = some (CEntry.lbl v₂) ∧
      ∀ e ∈ itS.child_items, e.2 ≠ CEntry.ptr c) := by
  have hpT : p ∈ taskIdxs items := mem_taskIdxs_of items p hplt hptype
  have hcT : c ∈ taskIdxs items := mem_taskIdxs_of items c hclt hctype
  have hsS : s ∈ storyIdxs items := mem_storyIdxs_of items s hslt hstype
  have hps : p ≠ s := by
    intro hh
    rw [hh, hstype] at hptype
    exact absurd hptype (by decide)
  obtain ⟨preT, postT, hsplitT⟩ := List.append_of_mem hpT
  obtain ⟨preS, postS, hsplitS⟩ := List.append_of_mem hsS
  have htnd := taskIdxs_nodup items
  rw [hsplitT, List.nodup_append] at htnd
  have hpreTnd : preT.Nodup := htnd.1
  have hpnpostT : p ∉ postT := (List.nodup_cons.mp htnd.2.1).1
  have hpostTnd : postT.Nodup := (List.nodup_cons.mp htnd.2.1).2
  have hpnpreT : p ∉ preT := fun hm => htnd.2.2 hm (List.mem_cons_self _ _)
  have hpostTnpreT : ∀ j ∈ postT, j ∉ preT :=
    fun j hj hm => htnd.2.2 hm (List.mem_cons_of_mem _ hj)
  have hsnd := storyIdxs_nodup items
  rw [hsplitS, List.nodup_append] at hsnd
  have hpreSnd : preS.Nodup := hsnd.1
  have hsnpostS : s ∉ postS := (List.nodup_cons.mp hsnd.2.1).1
  have hsnpreS : s ∉ preS := fun hm => hsnd.2.2 hm (List.mem_cons_self _ _)
  have hpreTsub : ∀ j ∈ preT, j ∈ taskIdxs items := by
    intro j hj
    rw [hsplitT]
    exact List.mem_append_left _ hj
  have hpostTsub : ∀ j ∈ postT, j ∈ taskIdxs items := by
    intro j hj
    rw [hsplitT]
    exact List.mem_append_right _ (List.mem_cons_of_mem _ hj)
  have hpreSsub : ∀ j ∈ preS, j ∈ storyIdxs items := by
    intro j hj
    rw [hsplitS]
    exact List.mem_append_left _ hj
  -- the staged decomposition of the two passes
  have hfold : reorganizeState items =
      postS.foldl stepItem (stepItem ((postT ++ preS).foldl stepItem
        (stepItem (preT.foldl stepItem (initHeap items, initMap items)) p)) s) := by
    unfold reorganizeState
    rw [hsplitT, hsplitS]
    simp only [List.append_assoc, List.cons_append, List.foldl_append, List.foldl_cons]
  set st1 := preT.foldl stepItem (initHeap items, initMap items) with hst1
  have inv1 : StateInv items st1 :=
    foldl_stepItem_inv items preT _ (initStateInv items) hpreTnd (fun j _ => rfl)
  have hheapP : st1.1[p]? = (initHeap items)[p]? :=
    foldl_stepItem_heap_get_ne preT _ p hpnpreT
  have hm0 : dictGet (initMap items) (normalize_task_name (summaryAt items c)) =
      some c := by
    unfold initMap
    exact foldl_initMap_get_unique items _ c (taskIdxs items) [] hcT
      (taskIdxs_nodup items) rfl hname_uniq
  have hmap1 : dictGet st1.2 (normalize_task_name (summaryAt items c)) = some c := by
    rw [hst1, foldl_stepItem_get_keepmap items _ preT _ hpreTnd (fun j _ => rfl) ?_]
    · exact hm0
    · intro j hj kv hkv hn
      have hjp : j = p := (href_uniq j (hpreTsub j hj) kv hkv hn).1
      exact hpnpreT (hjp ▸ hj)
  have hbaseP : items[p]? = some (items.get ⟨p, hplt⟩) := List.getElem?_eq_getElem hplt
  have hinitP : (initHeap items)[p]? = some
      ⟨(items.get ⟨p, hplt⟩).id, (items.get ⟨p, hplt⟩).summary,
        (items.get ⟨p, hplt⟩).type,
        (items.get ⟨p, hplt⟩).child_items.map fun kv => (kv.1, CEntry.lbl kv.2)⟩ := by
    unfold initHeap
    rw [List.getElem?_map, hbaseP]
    rfl
  have hchildP : childAt items p = (items.get ⟨p, hplt⟩).child_items := by
    unfold childAt
    rw [hbaseP]
    rfl
  set itp₀ : PItem :=
    ⟨(items.get ⟨p, hplt⟩).id, (items.get ⟨p, hplt⟩).summary,
      (items.get ⟨p, hplt⟩).type,
      (items.get ⟨p, hplt⟩).child_items.map fun kv => (kv.1, CEntry.lbl kv.2)⟩ with hitp₀
  have hstepP : stepItem st1 p =
      (st1.1.set p { itp₀ with child_items :=
        (itp₀.child_items.foldl (procEntry st1.1) ([], st1.2)).1 },
       (itp₀.child_items.foldl (procEntry st1.1) ([], st1.2)).2) := by
    unfold stepItem
    rw [hheapP, hinitP]
    rfl
  have hchildP' : itp₀.child_items =
      (childAt items p).map fun kv => (kv.1, CEntry.lbl kv.2) := by
    rw [hitp₀, hchildP]
  obtain ⟨eA, eB, eC⟩ :=
    procEntry_fold_embed st1.1 (normalize_task_name (summaryAt items c)) c k₁ v₁
      itp₀.child_items [] st1.2
      (by
        intro e he j
        rw [hchildP'] at he
        rcases List.mem_map.mp he with ⟨kv, _, hkv⟩
        rw [← hkv]
        simp)
      (by
        rw [hchildP']
        exact List.mem_map_of_mem _ hpentry)
      (by
        rw [hchildP', List.map_map]
        exact hpkeysnd)
      (by
        intro kv hkv name hname hn
        rw [hchildP'] at hkv
        rcases List.mem_map.mp hkv with ⟨kv₀, hkv₀, hkve⟩
        rw [← hkve] at hname ⊢
        simp only at hname ⊢
        cases hname
        exact ⟨(href_uniq p hpT kv₀ hkv₀ hn).2.1, (href_uniq p hpT kv₀ hkv₀ hn).2.2⟩)
      hv₁ hmap1 inv1.hvnd inv1.hknd
      (by
        intro j hj hjc
        rw [idAt_of_inv items st1 inv1 j, idAt_of_inv items st1 inv1 c]
        intro hh
        exact hjc (idOf_inj items hids j c
          (mem_taskIdxs_lt items j (inv1.hvtask j hj)) hclt hh))
      (by
        intro kv hkv
        rw [hchildP'] at hkv
        rcases List.mem_map.mp hkv with ⟨kv₀, hkv₀, hkve⟩
        rw [← hkve]
        simp only
        rw [idAt_of_inv items st1 inv1 c]
        exact hpkeys kv₀ hkv₀)
  set st2 := stepItem st1 p with hst2
  have hst2snd : st2.2 = (itp₀.child_items.foldl (procEntry st1.1) ([], st1.2)).2 := by
    rw [hstepP]
  have inv2 : StateInv items st2 := by
    rw [hst2]
    exact stepItem_inv items st1 p inv1 hheapP
  have hfresh23 : ∀ j ∈ postT ++ preS, st2.1[j]? = (initHeap items)[j]? := by
    intro j hj
    rw [List.mem_append] at hj
    have hjp : p ≠ j := by
      rcases hj with hj | hj
      · exact fun hh => hpnpostT (hh ▸ hj)
      · exact fun hh =>
          not_mem_storyIdxs_of_mem_taskIdxs items p hpT (hh ▸ hpreSsub j hj)
    have hjpreT : j ∉ preT := by
      rcases hj with hj | hj
      · exact hpostTnpreT j hj
      · exact fun hm =>
          not_mem_storyIdxs_of_mem_taskIdxs items j (hpreTsub j hm) (hpreSsub j hj)
    rw [hst2, stepItem_heap_get_ne st1 p j hjp, hst1]
    exact foldl_stepItem_heap_get_ne preT _ j hjpreT
  have hnd23 : (postT ++ preS).Nodup := by
    rw [List.nodup_append]
    exact ⟨hpostTnd, hpreSnd, fun j hj hm =>
      not_mem_storyIdxs_of_mem_taskIdxs items j (hpostTsub j hj) (hpreSsub j hm)⟩
  set st3 := (postT ++ preS).foldl stepItem st2 with hst3
  have inv3 : StateInv items st3 := by
    rw [hst3]
    exact foldl_stepItem_inv items (postT ++ preS) st2 inv2 hnd23 hfresh23
  have hmap3none : dictGet st3.2 (normalize_task_name (summaryAt items c)) = none := by
    rw [hst3]
    apply foldl_stepItem_get_none
    rw [hst2snd]
    exact eB
  have hcnot3 : c ∉ st3.2.map Prod.snd := by
    intro hc3
    apply eC
    rw [← hst2snd]
    exact foldl_stepItem_values_mono (postT ++ preS) st2 c (hst3 ▸ hc3)
  have hsnpostT : s ∉ postT :=
    fun hm => not_mem_storyIdxs_of_mem_taskIdxs items s (hpostTsub s hm) hsS
  have hsnpreT : s ∉ preT :=
    fun hm => not_mem_storyIdxs_of_mem_taskIdxs items s (hpreTsub s hm) hsS
  have hheapS3 : st3.1[s]? = (initHeap items)[s]? := by
    rw [hst3, foldl_stepItem_heap_get_ne (postT ++ preS) st2 s
      (by rw [List.mem_append]; exact fun hh => hh.elim hsnpostT hsnpreS)]
    rw [hst2, stepItem_heap_get_ne st1 p s hps, hst1]
    exact foldl_stepItem_heap_get_ne preT _ s hsnpreT
  have hlt1 : p < st1.1.length := by
    rw [inv1.hlen]
    exact hplt
  have hheapP3 : st3.1[p]? = some { itp₀ with child_items :=
      (itp₀.child_items.foldl (procEntry st1.1) ([], st1.2)).1 } := by
    rw [hst3, foldl_stepItem_heap_get_ne (postT ++ preS) st2 p
      (by
        rw [List.mem_append]
        rintro (hh | hh)
        · exact hpnpostT hh
        · exact not_mem_storyIdxs_of_mem_taskIdxs items p hpT (hpreSsub p hh))]
    rw [hstepP]
    show (st1.1.set p _)[p]? = _
    rw [List.getElem?_set_self', List.getElem?_eq_getElem hlt1]
    rfl
  -- stage 4: the story step retains the unresolved label and gains no pointer to c
  have hbaseS : items[s]? = some (items.get ⟨s, hslt⟩) := List.getElem?_eq_getElem hslt
  have hinitS : (initHeap items)[s]? = some
      ⟨(items.get ⟨s, hslt⟩).id, (items.get ⟨s, hslt⟩).summary,
        (items.get ⟨s, hslt⟩).type,
        (items.get ⟨s, hslt⟩).child_items.map fun kv => (kv.1, CEntry.lbl kv.2)⟩ := by
    unfold initHeap
    rw [List.getElem?_map, hbaseS]
    rfl
  have hchildS : childAt items s = (items.get ⟨s, hslt⟩).child_items := by
    unfold childAt
    rw [hbaseS]
    rfl
  set its₀ : PItem :=
    ⟨(items.get ⟨s, hslt⟩).id, (items.get ⟨s, hslt⟩).summary,
      (items.get ⟨s, hslt⟩).type,
      (items.get ⟨s, hslt⟩).child_items.map fun kv => (kv.1, CEntry.lbl kv.2)⟩ with hits₀
  have hchildS' : its₀.child_items =
      (childAt items s).map fun kv => (kv.1, CEntry.lbl kv.2) := by
    rw [hits₀, hchildS]
  have hstepS : stepItem st3 s =
      (st3.1.set s { its₀ with child_items :=
        (its₀.child_items.foldl (procEntry st3.1) ([], st3.2)).1 },
       (its₀.child_items.foldl (procEntry st3.1) ([], st3.2)).2) := by
    unfold stepItem
    rw [hheapS3, hinitS]
    rfl
  have hreachS : dictGet (its₀.child_items.foldl (procEntry st3.1) ([], st3.2)).1 k₂ =
      some (CEntry.lbl v₂) := by
    apply procEntry_fold_reach st3.1 its₀.child_items [] st3.2 k₂ v₂
    · rw [hchildS']
      exact List.mem_map_of_mem _ hsentry
    · rw [hchildS', List.map_map]
      exact hskeysnd
    · rw [hsv]
      exact (dictGet_none_iff st3.2 _).mp hmap3none
    · intro j hj
      rw [idAt_of_inv items st3 inv3 j]
      exact hsk j (mem_taskIdxs_lt items j (inv3.hvtask j hj))
  have hnocS : ∀ e ∈ (its₀.child_items.foldl (procEntry st3.1) ([], st3.2)).1,
      e.2 ≠ CEntry.ptr c := by
    intro e he hec
    obtain ⟨c1, c2, c3, c4, c5, c6, c7⟩ :=
      procEntry_fold_spec st3.1 its₀.child_items [] st3.2
        (by
          intro e' he' j
          rw [hchildS'] at he'
          rcases List.mem_map.mp he' with ⟨kv, _, hkv⟩
          rw [← hkv]
          simp)
        inv3.hvnd (by rw [entriesPtrs_nil]; exact List.nodup_nil)
        (by simp [entriesPtrs_nil])
    obtain ⟨ke, ee⟩ := e
    simp only at hec
    subst hec
    have hcptr := mem_entriesPtrs_of _ ke c he
    rcases c7 c hcptr with h1 | h1
    · simp [entriesPtrs_nil] at h1
    · exact hcnot3 h1
  have hlt3 : s < st3.1.length := by
    rw [inv3.hlen]
    exact hslt
  constructor
  · refine ⟨{ itp₀ with child_items :=
      (itp₀.child_items.foldl (procEntry st1.1) ([], st1.2)).1 }, ?_, ?_⟩
    · rw [hfold, foldl_stepItem_heap_get_ne postS _ p
        (fun hm => not_mem_storyIdxs_of_mem_taskIdxs items p hpT (by
          rw [hsplitS]
          exact List.mem_append_right _ (List.mem_cons_of_mem _ hm)))]
      rw [stepItem_heap_get_ne st3 s p (Ne.symm hps)]
      exact hheapP3
    · show dictGet (itp₀.child_items.foldl (procEntry st1.1) ([], st1.2)).1
        (idOf items c) = some (CEntry.ptr c)
      rw [← idAt_of_inv items st1 inv1 c]
      exact eA
  · refine ⟨{ its₀ with child_items :=
      (its₀.child_items.foldl (procEntry st3.1) ([], st3.2)).1 }, ?_, hreachS, hnocS⟩
    rw [hfold, foldl_stepItem_heap_get_ne postS _ s hsnpostS, hstepS]
    show (st3.1.set s _)[s]? = _
    rw [List.getElem?_set_self', List.getElem?_eq_getElem hlt3]
    rfl

set_option maxHeartbeats 1000000 in
theorem reorganize_prefers_task_parent_witness :
    (∃ itP, ((reorganizeState
        [(⟨"p1", "P", "Task", [("k1", "C")]⟩ : EItem),
         (⟨"s1", "S", "Story", [("k2", "C")]⟩ : EItem),
         (⟨"c1", "C", "Task", []⟩ : EItem)]).1)[0]? = some itP ∧
      dictGet itP.child_items (idOf
        [(⟨"p1", "P", "Task", [("k1", "C")]⟩ : EItem),
         (⟨"s1", "S", "Story", [("k2", "C")]⟩ : EItem),
         (⟨"c1", "C", "Task", []⟩ : EItem)] 2) = some (CEntry.ptr 2)) ∧
    (∃ itS, ((reorganizeState
        [(⟨"p1", "P", "Task", [("k1", "C")]⟩ : EItem),
         (⟨"s1", "S", "Story", [("k2", "C")]⟩ : EItem),
         (⟨"c1", "C", "Task", []⟩ : EItem)]).1)[1]? = some itS ∧
      dictGet itS.child_items "k2" = some (CEntry.lbl "C") ∧
      ∀ e ∈ itS.child_items, e.2 ≠ CEntry.ptr 2) :=
  reorganize_prefers_task_parent
    [(⟨"p1", "P", "Task", [("k1", "C")]⟩ : EItem),
     (⟨"s1", "S", "Story", [("k2", "C")]⟩ : EItem),
     (⟨"c1", "C", "Task", []⟩ : EItem)]
    0 2 1 "k1" "C" "k2" "C"
    (by decide) (by decide) (by decide) (by decide) (by decide) (by decide)
    (by decide) (by decide) (by decide) (by decide) (by decide) (by decide)
    (by decide) (by decide) (by decide) (by decide) (by decide)

end NotionJira
